import Mathlib

/-!
# Host-side orchestration of the GPU primitives (scan, radix sort, bitonic sort, max prefix sum)

Shallow embedding of `src/main_sum.cpp`, `src/main_radix.cpp`, `src/main_bitonic.cpp` and
`src/main_max_prefix_sum.cpp`.

Conventions of the embedding.

* A device buffer is a `List Nat` of 32-bit words; its element count is the length of the
  list.  A word is a natural number below `U32 = 2 ^ 32`; signed buffers (`gpu_mem_32i`) hold
  the two's complement word of each `int`.
* Host arithmetic on `unsigned int` is written with an explicit `% U32`.
* A freshly resized buffer is modelled as zero filled.  A read outside a buffer yields `0`
  and a write outside a buffer is dropped.
* The `float` elements sorted by `bitonic` are only compared; they are modelled as the
  elements of an arbitrary linear order (floats without NaN).
* The OpenCL kernel bodies are not part of the sources; each kernel is a definition
  modelled from the specification of its pass.
* Host recursion and host loops that the sources do not bound carry a `fuel` argument and
  return `none` when it runs out.
-/

namespace Tasks

/-! ## Machine words -/

/-- `BLOCK_SIZE` of the host sources. -/
def BLOCK_SIZE : Nat := 128

/-- Number of values of an `unsigned int`. -/
def U32 : Nat := 4294967296

/-- Unsigned 32-bit addition. -/
def addU32 (a b : Nat) : Nat := (a + b) % U32

/-- Unsigned 32-bit subtraction. -/
def subU32 (a b : Nat) : Nat := (a % U32 + U32 - b % U32) % U32

/-- Unsigned 32-bit multiplication. -/
def mulU32 (a b : Nat) : Nat := (a * b) % U32

/-- Sum `f 0 + ... + f (k - 1)`. -/
def rangeSum (f : Nat → Nat) : Nat → Nat
  | 0 => 0
  | k + 1 => rangeSum f k + f k

/-- Bounds-checked read of lane `j` of a pass over `n` logical elements: the padding
lanes `j ≥ n` read as `0`. -/
def lane (buf : List Nat) (n j : Nat) : Nat :=
  if j < n then buf.getD j 0 else 0

/-! ## Scan engine (`prefix_sum`) -/

/-- Modelled from the spec: the work-size descriptor `gpu::WorkSize(group_size, width)` of
libgpu, whose total width is the requested width rounded up to a multiple of the group
size. -/
def WorkSize (group_size width : Nat) : Nat :=
  (width + group_size - 1) / group_size * group_size

/-- Modelled from the spec: the `scan` kernel (its body `cl/sum.cl` is not in the sources),
dispatched over `WorkSize wg_size n` lanes with arguments `(as, b_sums, sums, n, first)`.
With `first = 1` every group of `wg_size` lanes writes its in-group inclusive scan into
`sums` and its total into `b_sums[group + 1]`; with `first = 0` every lane adds
`b_sums[group]` to its element of `sums`.  Returns the buffers `(b_sums, sums)` after the
pass. -/
def scan (wg_size : Nat) (as b_sums sums : List Nat) (n first : Nat) :
    List Nat × List Nat :=
  let width := WorkSize wg_size n
  if first = 1 then
    ((List.range b_sums.length).map fun k =>
        if 0 < k ∧ k ≤ width / wg_size then
          rangeSum (fun u => lane as n (wg_size * (k - 1) + u)) wg_size % U32
        else b_sums.getD k 0,
     (List.range sums.length).map fun i =>
        if i < width then
          rangeSum (fun u => lane as n (wg_size * (i / wg_size) + u)) (i % wg_size + 1) % U32
        else sums.getD i 0)
  else
    (b_sums,
     (List.range sums.length).map fun i =>
        if i < width then addU32 (sums.getD i 0) (b_sums.getD (i / wg_size) 0)
        else sums.getD i 0)

/-- The rounded size `res_n = (n + wg_size - 1) / wg_size * wg_size` of `prefix_sum`,
in `unsigned int` arithmetic. -/
def res_n (n wg_size : Nat) : Nat :=
  mulU32 (subU32 (addU32 n wg_size) 1 / wg_size) wg_size

/-- The element count `res_n / wg_size + 1` of the block-sum buffer. -/
def b_sums_n (n wg_size : Nat) : Nat :=
  addU32 (res_n n wg_size / wg_size) 1

/-- Host function `prefix_sum` (`main_sum.cpp` 16-44, repeated verbatim in `main_radix.cpp`
42-70 and, on `int` words, in `main_max_prefix_sum.cpp` 16-44).  `fuel` bounds the number
of nested invocations. -/
def prefix_sum : Nat → List Nat → Nat → Nat → Option (List Nat)
  | 0, _, _, _ => none
  | fuel + 1, as_gpu, n, wg_size =>
    let sums := List.replicate (res_n n wg_size) 0
    let b_sums := (List.replicate (b_sums_n n wg_size) 0).set 0 0
    let first := scan wg_size as_gpu b_sums sums n 1
    if wg_size ≥ n then some first.2
    else
      match prefix_sum fuel first.1 (b_sums_n n wg_size) wg_size with
      | none => none
      | some b_scanned => some (scan wg_size as_gpu b_scanned first.2 n 0).2

/-! ## Radix sort (`radix`) -/

/-- The digit of `mask_width` bits of the key `x` at bit offset `i`,
`(x >> i) & ((1 << mask_width) - 1)`. -/
def digit (x i mask_width : Nat) : Nat :=
  x / 2 ^ i % 2 ^ mask_width

/-- Modelled from the spec: the `count` kernel (`cl/radix.cl` is not in the sources), dispatched
with arguments `(as, counts, n, i, mask_width)`.  It produces the one-hot per-bucket indicator
array of length `n * 2 ^ mask_width`, bucket after bucket: entry `b * n + j` is `1` when the
digit of `as[j]` is `b` and `0` otherwise. -/
def count (as counts : List Nat) (n i mask_width : Nat) : List Nat :=
  (List.range counts.length).map fun p =>
    if p < n * 2 ^ mask_width then
      (if digit (as.getD (p % n) 0) i mask_width = p / n then 1 else 0)
    else counts.getD p 0

/-- Modelled from the spec: the `reorder` kernel (`cl/radix.cl` is not in the sources),
dispatched with arguments `(as, s, bs, n, i, mask_width)`, `s` being the inclusive scan of the
indicator array.  Lane `j < n` writes `as[j]` to its stable destination in `bs`: the number of
indicator entries set before its own, `s[digit * n + j] - 1`. -/
def reorder (as s bs : List Nat) (n i mask_width : Nat) : List Nat :=
  (List.range n).foldl
    (fun out j =>
      out.set (subU32 (s.getD (digit (as.getD j 0) i mask_width * n + j) 0) 1) (as.getD j 0))
    bs

/-- Device buffers of `radix`: the caller's `as_gpu`, and the local `counts_gpu` and
`bs_gpu`. -/
structure RadixState where
  as_gpu : List Nat
  counts_gpu : List Nat
  bs_gpu : List Nat
deriving DecidableEq, Repr

/-- Body of the loop of `radix` (`main_radix.cpp` 89-94) at bit offset `i`: count pass,
scan of the `n * (1 << mask_width)` indicator entries, reorder pass, buffer swap. -/
def radix_step (fuel n mask_width wg_size : Nat) (st : RadixState) (i : Nat) :
    Option RadixState :=
  let counts := count st.as_gpu st.counts_gpu n i mask_width
  match prefix_sum fuel counts (mulU32 n (1 <<< mask_width)) wg_size with
  | none => none
  | some s =>
    let bs := reorder st.as_gpu s st.bs_gpu n i mask_width
    some { as_gpu := bs, counts_gpu := counts, bs_gpu := st.as_gpu }

/-- The values taken by the loop variable of `for (int i = 0; i < 32; i += mask_width)`. -/
def radix_offsets (mask_width : Nat) : List Nat :=
  (List.range 32).filter fun i => i % mask_width = 0

/-- Host function `radix` (`main_radix.cpp` 72-96); the result is the content of the caller's
buffer `as_gpu` on return.  `fuel` bounds the nesting of each `prefix_sum` call. -/
def radix (fuel : Nat) (as_gpu : List Nat) (n : Nat) : Option (List Nat) :=
  let mask_width := 2
  let counts_gpu := List.replicate (mulU32 n (1 <<< mask_width)) 0
  let bs_gpu := List.replicate n 0
  let wg_size := BLOCK_SIZE
  ((radix_offsets mask_width).foldlM (radix_step fuel n mask_width wg_size)
    { as_gpu := as_gpu, counts_gpu := counts_gpu, bs_gpu := bs_gpu }).map (·.as_gpu)

/-- Stable bucket partition of `A` by `key` into the buckets `0, ..., B - 1`: the elements
with key `0` in input order, then those with key `1`, and so on. -/
def buckets (key : Nat → Nat) (A : List Nat) : Nat → List Nat
  | 0 => []
  | B + 1 => buckets key A B ++ A.filter (fun x => key x = B)

/-- Entry `p` of the one-hot indicator array of `A` for `key`, bucket after bucket. -/
def indicator (key : Nat → Nat) (A : List Nat) (n p : Nat) : Nat :=
  if key (A.getD (p % n) 0) = p / n then 1 else 0

/-! ## Bitonic sort (`bitonic`) -/

/-- Modelled from the spec: one bitonic compare-exchange pass at stride `skip` within merge
stage `bsize` over the first `n` elements (the kernels of `cl/bitonic.cl` are not in the
sources).  Element `i` is paired with `i + skip` when `i / skip` is even and with `i - skip`
otherwise; a pair whose upper index is `≥ n` is left alone; the pair is put in ascending order
when `i / bsize` is even and in descending order otherwise. -/
def compare_exchange {α : Type} [LinearOrder α] (n bsize skip : Nat) (as : List α) : List α :=
  as.mapIdx fun i x =>
    if i / skip % 2 = 0 then
      match as[i + skip]? with
      | some y => if i + skip < n then (if i / bsize % 2 = 0 then min x y else max x y) else x
      | none => x
    else
      match as[i - skip]? with
      | some y => if i < n then (if i / bsize % 2 = 0 then max y x else min y x) else x
      | none => x

/-- Modelled from the spec: the `bitonic_large` kernel, one compare-exchange at stride
`skip` within stage `bsize`. -/
def bitonic_large {α : Type} [LinearOrder α] (as : List α) (n bsize skip : Nat) : List α :=
  compare_exchange n bsize skip as

/-- Modelled from the spec: the `bitonic_small` kernel, the compare-exchanges at strides
`skip, skip / 2, ..., 1` within stage `bsize`.  The first argument counts the strides that
may still follow; `skip` itself always suffices since the stride halves. -/
def bitonic_small_loop {α : Type} [LinearOrder α] (n bsize : Nat) :
    Nat → Nat → List α → List α
  | 0, _, as => as
  | fuel + 1, skip, as =>
    if skip = 0 then as
    else bitonic_small_loop n bsize fuel (skip / 2) (compare_exchange n bsize skip as)

/-- Modelled from the spec: the `bitonic_small` kernel. -/
def bitonic_small {α : Type} [LinearOrder α] (as : List α) (n bsize skip : Nat) : List α :=
  bitonic_small_loop n bsize skip skip as

/-- A kernel dispatch of `bitonic`: the kernel, its work size `(wg_size, gw_size)` and its
scalar arguments `(n, bsize, skip)`. -/
inductive BitonicPass where
  | large (wg_size gw_size n bsize skip : Nat)
  | small (wg_size gw_size n bsize skip : Nat)
deriving DecidableEq, Repr

/-- The inner loop `for (; skip * 2 > wg_size; skip /= 2)` of `bitonic`
(`main_bitonic.cpp` 48-51), `large` being the effect of one large-stride dispatch on the device
state.  Returns the state and the value of `skip` on exit.  The first argument counts the
iterations that may still follow; the initial `skip` always suffices since `skip` halves and
the loop stops at `skip = 0`. -/
def bitonic_skip_loop {σ : Type} (large : Nat → Nat → σ → σ) (wg_size bsize : Nat) :
    Nat → Nat → σ → σ × Nat
  | 0, skip, st => (st, skip)
  | fuel + 1, skip, st =>
    if mulU32 skip 2 > wg_size then
      bitonic_skip_loop large wg_size bsize fuel (skip / 2) (large bsize skip st)
    else (st, skip)

/-- The outer loop `for (bsize = 2; bsize / 2 < n; bsize *= 2)` of `bitonic`
(`main_bitonic.cpp` 46-54) from the current value of `bsize`; `large bsize skip` and
`small bsize skip` are the effects of the two dispatches on the device state.  `fuel` bounds
the number of evaluations of the loop condition. -/
def bitonic_loop {σ : Type} (large small : Nat → Nat → σ → σ) (n wg_size : Nat) :
    Nat → Nat → σ → Option σ
  | 0, _, _ => none
  | fuel + 1, bsize, st =>
    if bsize / 2 < n then
      let r := bitonic_skip_loop large wg_size bsize (bsize / 2) (bsize / 2) st
      bitonic_loop large small n wg_size fuel (mulU32 bsize 2) (small bsize r.2 r.1)
    else some st

/-- The rounded global size `gw_size = (n + wg_size - 1) / wg_size * wg_size` of `bitonic`,
in `unsigned int` arithmetic. -/
def gw_size (n wg_size : Nat) : Nat :=
  mulU32 (subU32 (addU32 n wg_size) 1 / wg_size) wg_size

/-- Host function `bitonic` (`main_bitonic.cpp` 38-55) for a work-group size `wg_size`
(`BLOCK_SIZE` in the sources); the result is the content of `as_gpu` on return. -/
def bitonic_with {α : Type} [LinearOrder α] (wg_size fuel : Nat) (as_gpu : List α) (n : Nat) :
    Option (List α) :=
  bitonic_loop (fun bsize skip as => bitonic_large as n bsize skip)
    (fun bsize skip as => bitonic_small as n bsize skip) n wg_size fuel 2 as_gpu

/-- Host function `bitonic` with `wg_size = BLOCK_SIZE`. -/
def bitonic {α : Type} [LinearOrder α] (fuel : Nat) (as_gpu : List α) (n : Nat) :
    Option (List α) :=
  bitonic_with BLOCK_SIZE fuel as_gpu n

/-- The sequence of dispatches issued by `bitonic` for `n` elements and work-group size
`wg_size`. -/
def bitonic_trace (wg_size fuel n : Nat) : Option (List BitonicPass) :=
  bitonic_loop
    (fun bsize skip tr => tr ++ [BitonicPass.large wg_size (gw_size n wg_size) n bsize skip])
    (fun bsize skip tr => tr ++ [BitonicPass.small wg_size (gw_size n wg_size) n bsize skip])
    n wg_size fuel 2 []

/-- The least multiple of `wg` that is `≥ n`. -/
def round_up (n wg : Nat) : Nat :=
  (n + wg - 1) / wg * wg

/-- Dispatches of one merge stage as the specification describes them: one large-stride pass
for each `skip = bsize / 2, bsize / 4, ..., 1` with `skip * 2 > wg`, then one small-stride pass
with `skip = min (bsize / 2) (wg / 2)`. -/
def expected_stage (wg n bsize : Nat) : List BitonicPass :=
  ((((List.range (Nat.log 2 bsize)).map fun u => bsize / 2 ^ (u + 1)).filter
      fun skip => skip * 2 > wg).map
    fun skip => BitonicPass.large wg (round_up n wg) n bsize skip) ++
  [BitonicPass.small wg (round_up n wg) n bsize (min (bsize / 2) (wg / 2))]

/-- Dispatch trace as the specification describes it: the stages `bsize = 2, 4, 8, ...` up
to the least power of two `≥ n` (none when `n = 1`). -/
def expected_trace (wg n : Nat) : List BitonicPass :=
  ((List.range (Nat.clog 2 n)).map fun u => 2 ^ (u + 1)).flatMap (expected_stage wg n)

/-! ## Max prefix sum (`max_prefix_sum`) -/

/-- The `int` held by a 32-bit word (two's complement). -/
def toInt32 (w : Nat) : Int :=
  if w % U32 < 2147483648 then (w % U32 : Nat) else (w % U32 : Nat) - 4294967296

/-- The 32-bit word holding an `int`. -/
def ofInt32 (x : Int) : Nat :=
  (x % 4294967296).toNat

/-- Reduction of an integer to the range of `int` (32-bit wraparound). -/
def wrapInt32 (x : Int) : Int :=
  toInt32 (ofInt32 x)

/-- Modelled from the spec: the choice made by the pairwise-max pass between the indices `a`
and `b`: the one whose `sums` value (as an `int`) is larger, the lower index on a tie. -/
def better (sums : List Nat) (a b : Nat) : Nat :=
  if toInt32 (sums.getD a 0) < toInt32 (sums.getD b 0) ∨
      (toInt32 (sums.getD b 0) = toInt32 (sums.getD a 0) ∧ b < a) then b else a

/-- Modelled from the spec: the `max_scan` kernel (`cl/max_prefix_sum.cl` is not in the
sources), dispatched with arguments `(sums, maxes, m)`: for `k < m / 2` it compares the
indices `maxes[k]` and `maxes[k + m / 2]` and keeps the better one in `maxes[k]`. -/
def max_scan (sums maxes : List Nat) (m : Nat) : List Nat :=
  maxes.mapIdx fun k a =>
    if k < m / 2 then
      match maxes[k + m / 2]? with
      | some b => better sums a b
      | none => a
    else a

/-- Host function `max_elem` (`main_max_prefix_sum.cpp` 46-57).  `fuel` bounds the number of
nested invocations. -/
def max_elem : Nat → List Nat → List Nat → Nat → Option (List Nat)
  | 0, _, _, _ => none
  | fuel + 1, as_gpu, maxes, n =>
    if n = 1 then some maxes
    else max_elem fuel as_gpu (max_scan as_gpu maxes n) (n / 2)

/-- Host function `max_prefix_sum` (`main_max_prefix_sum.cpp` 59-80) on a device buffer of
`int` words; returns the pair `(sums_cpu[cpu_res[0]], cpu_res[0])`. -/
def max_prefix_sum (fuel : Nat) (as_gpu : List Nat) (n : Nat) : Option (Int × Int) :=
  match prefix_sum fuel as_gpu n BLOCK_SIZE with
  | none => none
  | some sums_gpu =>
    let sums_cpu := (List.range n).map fun i => toInt32 (sums_gpu.getD i 0)
    let maxes_cpu := (List.range n).map fun (i : Nat) => ofInt32 (i : Int)
    match max_elem fuel sums_gpu maxes_cpu n with
    | none => none
    | some gpu_res =>
      let cpu_res := toInt32 (gpu_res.getD 0 0)
      some (sums_cpu.getD cpu_res.toNat 0, cpu_res)

/-- Entry `i` of the inclusive prefix-sum array of the `int` array `A`, with 32-bit
wraparound. -/
def prefixSum (A : List Int) (i : Nat) : Int :=
  wrapInt32 (A.take (i + 1)).sum

/-- The sequential reference of `main` (`main_max_prefix_sum.cpp` 110-125): starting from
`max_sum = 0`, `sum = 0`, `result = 0`, it records `result = i + 1` at each strict
improvement of the running sum.  The state is `(sum, max_sum, result, i)`. -/
def reference (as : List Int) : Int × Int :=
  let st := as.foldl
    (fun (st : Int × Int × Int × Int) a =>
      let sum := wrapInt32 (st.1 + a)
      if sum > st.2.1 then (sum, sum, st.2.2.2 + 1, st.2.2.2 + 1)
      else (sum, st.2.1, st.2.2.1, st.2.2.2 + 1))
    (0, 0, 0, 0)
  (st.2.1, st.2.2.1)

/-- The device computation of `main` (`main_max_prefix_sum.cpp` 161-171): a `0` is inserted
at the front of `as`, the first `n` elements are uploaded and `max_prefix_sum` is run on
them. -/
def main_gpu (fuel : Nat) (as : List Int) (n : Nat) : Option (Int × Int) :=
  max_prefix_sum fuel (((0 :: as).take n).map ofInt32) n

/-- Index `r` satisfies `P` and is the best index satisfying `P`: its value is maximal and it
is the least index with that value. -/
def IsBest (val : Nat → Int) (P : Nat → Prop) (r : Nat) : Prop :=
  P r ∧ ∀ i, P i → val i < val r ∨ (val i = val r ∧ r ≤ i)

/-! ## Bitonic sort: the sorting network -/

/-- The compare-exchange at stride `s` with an arbitrary direction `dir i` (ascending when
`true`) for the pair of element `i`, on a list that holds all the `n` elements. -/
def cmpx {α : Type} [LinearOrder α] (dir : Nat → Bool) (s : Nat) (x : List α) : List α :=
  x.mapIdx fun i v =>
    if i / s % 2 = 0 then
      match x[i + s]? with
      | some w => if dir i then min v w else max v w
      | none => v
    else
      match x[i - s]? with
      | some w => if dir i then max w v else min w v
      | none => v

/-- The compare-exchanges at strides `2 ^ (t - 1), ..., 2, 1` with direction `dir`. -/
def cascade {α : Type} [LinearOrder α] (dir : Nat → Bool) : Nat → List α → List α
  | 0, x => x
  | t + 1, x => cascade dir t (cmpx dir (2 ^ t) x)

/-- Direction of merge stage `bsize = 2 ^ j` at the element with global index `off + i`. -/
def stageDir (off j i : Nat) : Bool :=
  decide ((off + i) / 2 ^ j % 2 = 0)

/-- The merge stages `bsize = 2, 4, ..., 2 ^ k` of the bitonic network on a list whose first
element has global index `off`. -/
def network {α : Type} [LinearOrder α] (off : Nat) : Nat → List α → List α
  | 0, x => x
  | j + 1, x => cascade (stageDir off (j + 1)) (j + 1) (network off j x)

/-- The compare-exchange passes of stage `bsize` at strides `2 ^ (t - 1), ..., 2, 1`, as
dispatched on the device. -/
def stage_passes {α : Type} [LinearOrder α] (n bsize : Nat) : Nat → List α → List α
  | 0, x => x
  | t + 1, x => stage_passes n bsize t (compare_exchange n bsize (2 ^ t) x)

/-- The stages `bsize = 2, 4, ..., 2 ^ k` as dispatched on the device. -/
def stages {α : Type} [LinearOrder α] (n : Nat) : Nat → List α → List α
  | 0, x => x
  | j + 1, x => stage_passes n (2 ^ (j + 1)) (j + 1) (stages n j x)

/-- Positions `p ≤ i < q` of the Boolean list `x` hold `b` and the other positions hold
`!b`. -/
def Block (b : Bool) (x : List Bool) (p q : Nat) : Prop :=
  ∀ i, i < x.length → (x.getD i false = b ↔ p ≤ i ∧ i < q)

/-- A Boolean list is bitonic when its `true` entries or its `false` entries are
contiguous. -/
def Bitonic01 (x : List Bool) : Prop :=
  ∃ b p q, Block b x p q

/-- A Boolean list sorted in direction `d`: ascending (`false`s first) when `d = true`,
descending when `d = false`. -/
def SortedDir (d : Bool) (x : List Bool) : Prop :=
  ∃ z, Block d x z x.length


/-! ## Radix sort: the dispatch trace -/

/-- A dispatch `scan.exec(gpu::WorkSize(wg_size, width), _, _, _, n, first)` issued by
`prefix_sum`: its work size and its scalar arguments. -/
structure ScanDispatch where
  wg_size : Nat
  width : Nat
  n : Nat
  first : Nat
deriving DecidableEq, Repr

/-- Host function `prefix_sum` (`main_radix.cpp` 42-70) returning, next to the scanned
buffer, the `scan` dispatches it issued in order, those of the nested invocations
included.  `fuel` bounds the number of nested invocations. -/
def prefix_sum_traced : Nat → List Nat → Nat → Nat → Option (List Nat × List ScanDispatch)
  | 0, _, _, _ => none
  | fuel + 1, as_gpu, n, wg_size =>
    let sums := List.replicate (res_n n wg_size) 0
    let b_sums := (List.replicate (b_sums_n n wg_size) 0).set 0 0
    let first := scan wg_size as_gpu b_sums sums n 1
    if wg_size ≥ n then some (first.2, [⟨wg_size, n, n, 1⟩])
    else
      match prefix_sum_traced fuel first.1 (b_sums_n n wg_size) wg_size with
      | none => none
      | some r =>
        some ((scan wg_size as_gpu r.1 first.2 n 0).2,
          ⟨wg_size, n, n, 1⟩ :: r.2 ++ [⟨wg_size, n, n, 0⟩])

/-- An action of the host function `radix` on the device: a dispatch of the `count` or of
the `reorder` kernel with its work size `(wg_size, gw_size)` and scalar arguments
`(n, i, mask_width)`, a call of `prefix_sum` over `n` elements with the `scan` dispatches it
issues, or the exchange of the handles `as_gpu` and `bs_gpu`. -/
inductive RadixEvent where
  | count (wg_size gw_size n i mask_width : Nat)
  | prefix_sum (n wg_size : Nat) (dispatches : List ScanDispatch)
  | reorder (wg_size gw_size n i mask_width : Nat)
  | swap
deriving DecidableEq, Repr

/-- Body of the loop of `radix` (`main_radix.cpp` 89-94) at bit offset `i`, on the device
buffers and the actions recorded so far. -/
def radix_step_traced (fuel n mask_width wg_size gw_size : Nat)
    (st : RadixState × List RadixEvent) (i : Nat) : Option (RadixState × List RadixEvent) :=
  let counts := count st.1.as_gpu st.1.counts_gpu n i mask_width
  match prefix_sum_traced fuel counts (mulU32 n (1 <<< mask_width)) wg_size with
  | none => none
  | some s =>
    let bs := reorder st.1.as_gpu s.1 st.1.bs_gpu n i mask_width
    some ({ as_gpu := bs, counts_gpu := counts, bs_gpu := st.1.as_gpu },
      st.2 ++ [RadixEvent.count wg_size gw_size n i mask_width,
        RadixEvent.prefix_sum (mulU32 n (1 <<< mask_width)) wg_size s.2,
        RadixEvent.reorder wg_size gw_size n i mask_width,
        RadixEvent.swap])

/-- Host function `radix` (`main_radix.cpp` 72-96) returning the content of the caller's
buffer `as_gpu` on return and the actions it performed, in order. -/
def radix_traced (fuel : Nat) (as_gpu : List Nat) (n : Nat) :
    Option (List Nat × List RadixEvent) :=
  let mask_width := 2
  let counts_gpu := List.replicate (mulU32 n (1 <<< mask_width)) 0
  let bs_gpu := List.replicate n 0
  let wg_size := BLOCK_SIZE
  let gw_size := n
  ((radix_offsets mask_width).foldlM (radix_step_traced fuel n mask_width wg_size gw_size)
    ({ as_gpu := as_gpu, counts_gpu := counts_gpu, bs_gpu := bs_gpu }, [])).map
    fun r => (r.1.as_gpu, r.2)

/-- The `scan` dispatches of a call of `prefix_sum` over `n` elements with work-group size
`wg_size`, computed from `n` and `wg_size` alone: the first pass, then for `n > wg_size` the
dispatches of the call on the `res_n / wg_size + 1` block sums and the second pass.  The
first argument bounds the nesting. -/
def scan_dispatches : Nat → Nat → Nat → List ScanDispatch
  | 0, _, _ => []
  | fuel + 1, n, wg_size =>
    if wg_size ≥ n then [⟨wg_size, n, n, 1⟩]
    else
      ⟨wg_size, n, n, 1⟩ :: scan_dispatches fuel (b_sums_n n wg_size) wg_size ++
        [⟨wg_size, n, n, 0⟩]

/-- The `scan` dispatches of a call of `prefix_sum` over `n` elements, with the nesting
`clog_wg_size n + 1` that suffices for every `wg_size ≥ 3`. -/
def expected_scan (n wg_size : Nat) : List ScanDispatch :=
  scan_dispatches (Nat.clog wg_size n + 1) n wg_size

/-- Actions of one iteration of the loop of `radix` (`main_radix.cpp` 89-94) at bit offset
`i`, for `n` keys, when the call of `prefix_sum` runs over `m` elements: the count pass, the
call of `prefix_sum` with its `scan` dispatches, the reorder pass and the buffer swap. -/
def iteration_actions (m n i : Nat) : List RadixEvent :=
  [RadixEvent.count BLOCK_SIZE n n i 2,
   RadixEvent.prefix_sum m BLOCK_SIZE (expected_scan m BLOCK_SIZE),
   RadixEvent.reorder BLOCK_SIZE n n i 2,
   RadixEvent.swap]

/-- Actions of one iteration of `radix` at bit offset `i` as the specification describes
them: one count pass, one `prefix_sum` over the `n * 4` indicator entries, one reorder pass
and one buffer swap. -/
def expected_iteration (n i : Nat) : List RadixEvent :=
  iteration_actions (n * 4) n i

/-- Actions of `radix` as the specification describes them: 16 iterations, at the bit
offsets `0, 2, ..., 30`. -/
def expected_radix_trace (n : Nat) : List RadixEvent :=
  ((List.range 16).map fun k => 2 * k).flatMap (expected_iteration n)
/-! ## Scan engine: lemmas -/

theorem rangeSum_add (f : Nat → Nat) (a b : Nat) :
    rangeSum f (a + b) = rangeSum f a + rangeSum (fun u => f (a + u)) b := by
  induction b with
  | zero => simp [rangeSum]
  | succ b ih => rw [← Nat.add_assoc, rangeSum, ih, rangeSum]; omega

theorem rangeSum_congr {f h : Nat → Nat} (k : Nat) (hf : ∀ j < k, f j = h j) :
    rangeSum f k = rangeSum h k := by
  induction k with
  | zero => rfl
  | succ k ih =>
    rw [rangeSum, rangeSum, ih (fun j hj => hf j (Nat.lt_succ_of_lt hj)), hf k (Nat.lt_succ_self k)]

theorem rangeSum_take (A : List Nat) (n k : Nat) (hk : k ≤ n) (hlen : n ≤ A.length) :
    rangeSum (lane A n) k = (A.take k).sum := by
  induction k with
  | zero => simp [rangeSum]
  | succ k ih =>
    have hk' : k < A.length := by omega
    rw [rangeSum, ih (by omega), List.take_succ, List.sum_append]
    simp [lane, List.getD_eq_getElem?_getD, List.getElem?_eq_getElem hk']
    omega

theorem subU32_addU32_one (n g : Nat) (h : 1 ≤ n + g) :
    subU32 (addU32 n g) 1 = (n + g - 1) % U32 := by
  unfold subU32 addU32 U32
  omega

theorem res_n_eq (n g : Nat) (h : n + g ≤ U32) (hg : 1 ≤ g) :
    res_n n g = WorkSize g n := by
  unfold res_n WorkSize mulU32
  rw [subU32_addU32_one n g (by omega)]
  have h1 : (n + g - 1) % U32 = n + g - 1 := Nat.mod_eq_of_lt (by omega)
  rw [h1]
  apply Nat.mod_eq_of_lt
  have := Nat.div_mul_le_self (n + g - 1) g
  omega

theorem scan_length (g : Nat) (as b s : List Nat) (n first : Nat) :
    (scan g as b s n first).2.length = s.length := by
  unfold scan
  split <;> simp

theorem prefix_sum_length (fuel : Nat) (A : List Nat) (n g : Nat) (r : List Nat)
    (h : prefix_sum fuel A n g = some r) : r.length = res_n n g := by
  cases fuel with
  | zero => simp [prefix_sum] at h
  | succ fuel =>
    simp only [prefix_sum] at h
    split at h
    · cases h; simp [scan_length]
    · split at h
      · cases h
      · cases h; simp [scan_length]


theorem res_n_div (n g : Nat) (hg : 1 ≤ g) :
    res_n n g / g = (n + g - 1) % U32 / g := by
  unfold res_n mulU32
  rw [subU32_addU32_one n g (by omega)]
  have h1 : (n + g - 1) % U32 < U32 := Nat.mod_lt _ (by decide)
  have h2 := Nat.div_mul_le_self ((n + g - 1) % U32) g
  rw [Nat.mod_eq_of_lt (by omega)]
  exact Nat.mul_div_cancel _ (by omega)

theorem b_sums_n_le (n g : Nat) (hg : 1 ≤ g) :
    b_sums_n n g ≤ (n - 1) / g + 2 := by
  unfold b_sums_n addU32
  rw [res_n_div n g hg]
  have h1 : (n + g - 1) % U32 / g ≤ (n + g - 1) / g :=
    Nat.div_le_div_right (Nat.mod_le _ _)
  have h2 : (n + g - 1) / g ≤ (n - 1) / g + 1 := by
    rcases Nat.eq_zero_or_pos n with h0 | hpos
    · subst h0
      have : (0 + g - 1) / g = 0 := Nat.div_eq_of_lt (by omega)
      rw [this]; exact Nat.zero_le _
    · have : n + g - 1 = (n - 1) + g := by omega
      rw [this, Nat.add_div_right _ (by omega)]
  have h3 := Nat.mod_le ((n + g - 1) % U32 / g + 1) U32
  omega

theorem b_sums_n_eq (n g : Nat) (hg : 2 ≤ g) (h : n + g ≤ U32) :
    b_sums_n n g = WorkSize g n / g + 1 := by
  unfold b_sums_n addU32
  rw [res_n_eq n g h (by omega)]
  apply Nat.mod_eq_of_lt
  unfold WorkSize
  rw [Nat.mul_div_cancel _ (by omega)]
  have h1 : (n + g - 1) / g ≤ (n + g - 1) / 2 := Nat.div_le_div_left hg (by decide)
  unfold U32 at *
  omega

theorem b_sums_n_lt (n g : Nat) (hg : 2 ≤ g) (hn : g < n) : b_sums_n n g ≤ n := by
  have h1 := b_sums_n_le n g (by omega)
  have h2 : (n - 1) / g ≤ (n - 1) / 2 := Nat.div_le_div_left hg (by decide)
  omega

theorem clog_step (n g : Nat) (hg : 3 ≤ g) (hn : g < n) :
    Nat.clog g (b_sums_n n g - 2) + 1 ≤ Nat.clog g (n - 2) := by
  rw [Nat.clog_of_two_le (by omega : 1 < g) (by omega : 2 ≤ n - 2)]
  apply Nat.succ_le_succ
  apply Nat.clog_mono_right
  have h1 := b_sums_n_le n g (by omega)
  have h2 : (n - 1) / g ≤ (n - 2 + g - 1) / g := Nat.div_le_div_right (by omega)
  exact Nat.le_trans (Nat.sub_le_of_le_add h1) h2

theorem prefix_sum_fuel (g : Nat) (hg : 3 ≤ g) :
    ∀ (fuel n : Nat) (A : List Nat), Nat.clog g (n - 2) < fuel →
      ∃ r, prefix_sum fuel A n g = some r := by
  intro fuel
  induction fuel with
  | zero => intro n A h; omega
  | succ fuel ih =>
    intro n A h
    simp only [prefix_sum]
    split
    · exact ⟨_, rfl⟩
    · rename_i hn
      have hstep := clog_step n g hg (by omega)
      obtain ⟨r, hr⟩ := ih (b_sums_n n g)
        ((scan g A ((List.replicate (b_sums_n n g) 0).set 0 0)
          (List.replicate (res_n n g) 0) n 1).1) (by omega)
      rw [hr]
      exact ⟨_, rfl⟩

theorem clog_sub_le (g n : Nat) : Nat.clog g (n - 2) ≤ Nat.clog g n :=
  Nat.clog_mono_right g (Nat.sub_le n 2)

theorem clog_lt_of_le_pow (b n k fuel : Nat) (hb : 1 < b) (h : n ≤ b ^ k) (hf : k < fuel) :
    Nat.clog b n < fuel :=
  Nat.lt_of_le_of_lt ((Nat.le_pow_iff_clog_le hb).mp h) hf


theorem lane_lt (buf : List Nat) (n j : Nat) (h : j < n) : lane buf n j = buf.getD j 0 := by
  simp [lane, h]

theorem le_WorkSize (g n : Nat) (hg : 1 ≤ g) : n ≤ WorkSize g n := by
  unfold WorkSize
  have h1 := Nat.div_add_mod (n + g - 1) g
  have h2 := Nat.mod_lt (n + g - 1) (by omega : g > 0)
  rw [Nat.mul_comm] at h1
  omega

theorem getD_map_range (f : Nat → Nat) (m i : Nat) (h : i < m) :
    ((List.range m).map f).getD i 0 = f i := by
  simp [List.getD_eq_getElem?_getD, List.getElem?_map, List.getElem?_range h]

theorem scan_first_sums (g : Nat) (A b s : List Nat) (n i : Nat)
    (hi : i < s.length) (hw : i < WorkSize g n) :
    (scan g A b s n 1).2.getD i 0 =
      rangeSum (fun u => lane A n (g * (i / g) + u)) (i % g + 1) % U32 := by
  simp only [scan, if_true]
  rw [getD_map_range _ _ _ hi, if_pos hw]

theorem scan_first_b_sums (g : Nat) (A b s : List Nat) (n k : Nat)
    (hk : k + 1 < b.length) (hw : k + 1 ≤ WorkSize g n / g) :
    (scan g A b s n 1).1.getD (k + 1) 0 =
      rangeSum (fun u => lane A n (g * k + u)) g % U32 := by
  simp only [scan, if_true]
  rw [getD_map_range _ _ _ hk, if_pos ⟨Nat.succ_pos k, hw⟩, Nat.add_sub_cancel]

theorem scan_first_b_zero (g : Nat) (A b s : List Nat) (n : Nat) (hk : 0 < b.length) :
    (scan g A b s n 1).1.getD 0 0 = b.getD 0 0 := by
  simp only [scan, if_true]
  rw [getD_map_range _ _ _ hk, if_neg (by omega)]

theorem scan_second_sums (g : Nat) (A b s : List Nat) (n i : Nat)
    (hi : i < s.length) (hw : i < WorkSize g n) :
    (scan g A b s n 0).2.getD i 0 = addU32 (s.getD i 0) (b.getD (i / g) 0) := by
  simp only [scan, if_neg (by decide : ¬ (0 = 1))]
  rw [getD_map_range _ _ _ hi, if_pos hw]

theorem block_sums_scan (f b : Nat → Nat) (g K : Nat) (h0 : b 0 = 0)
    (hb : ∀ t, t + 1 ≤ K → b (t + 1) = rangeSum (fun u => f (g * t + u)) g % U32) :
    ∀ k, k ≤ K → rangeSum b (k + 1) % U32 = rangeSum f (g * k) % U32 := by
  intro k
  induction k with
  | zero => intro _; simp [rangeSum, h0]
  | succ k ih =>
    intro hk
    rw [rangeSum, Nat.add_mod, ih (by omega), hb k hk, Nat.mod_mod, ← Nat.add_mod,
      Nat.mul_succ, rangeSum_add]

theorem prefix_sum_getD (g : Nat) (hg : 2 ≤ g) :
    ∀ (fuel n : Nat) (A r : List Nat), n + g ≤ U32 → prefix_sum fuel A n g = some r →
      ∀ i, i < n → r.getD i 0 = rangeSum (lane A n) (i + 1) % U32 := by
  intro fuel
  induction fuel with
  | zero => intro n A r _ h; simp [prefix_sum] at h
  | succ fuel ih =>
    intro n A r hsz h i hi
    have hW := le_WorkSize g n (by omega)
    have hres := res_n_eq n g hsz (by omega)
    simp only [prefix_sum] at h
    split at h
    · rename_i hn
      cases h
      rw [scan_first_sums g A _ _ n i (by simpa [hres] using (by omega : i < WorkSize g n))
        (by omega)]
      have hlt : i < g := by omega
      rw [Nat.div_eq_of_lt hlt, Nat.mod_eq_of_lt hlt]
      simp
    · rename_i hn
      split at h
      · cases h
      · rename_i r1 hr1
        cases h
        have hbn := b_sums_n_eq n g hg hsz
        have hle := b_sums_n_lt n g hg (by omega)
        have ih1 := ih (b_sums_n n g) _ _ (by omega) hr1
        have hiW : i < WorkSize g n := by omega
        rw [scan_second_sums g A _ _ n i (by simpa [scan_length, hres] using hiW) hiW]
        rw [scan_first_sums g A _ _ n i (by simpa [hres] using hiW) hiW]
        have hdiv : i / g ≤ WorkSize g n / g := Nat.div_le_div_right (by omega)
        rw [ih1 (i / g) (by omega)]
        have key := block_sums_scan (lane A n)
          (lane (scan g A ((List.replicate (b_sums_n n g) 0).set 0 0)
            (List.replicate (res_n n g) 0) n 1).1 (b_sums_n n g)) g (WorkSize g n / g)
          (by
            have h0 : 0 < b_sums_n n g := by rw [hbn]; exact Nat.succ_pos _
            rw [lane_lt _ _ 0 h0, scan_first_b_zero _ _ _ _ _ (by simpa using h0)]
            simp [List.getD_eq_getElem?_getD])
          (by
            intro t ht
            have h1 : t + 1 < b_sums_n n g := by omega
            rw [lane_lt _ _ (t + 1) h1, scan_first_b_sums _ _ _ _ _ _ (by simpa using h1) ht])
          (i / g) hdiv
        rw [key]
        unfold addU32
        rw [← Nat.add_mod, Nat.add_comm, ← rangeSum_add (lane A n) (g * (i / g)) (i % g + 1)]
        congr 2
        have := Nat.div_add_mod i g
        omega


theorem WorkSize_of_not_dvd (g n : Nat) (hg : 1 ≤ g) (h : n % g ≠ 0) :
    WorkSize g n = (n / g + 1) * g := by
  unfold WorkSize
  congr 1
  have h1 := Nat.div_add_mod n g
  have h2 := Nat.mod_lt n (by omega : g > 0)
  have h3 : n + g - 1 = (n % g - 1) + g * (n / g + 1) := by
    rw [Nat.mul_add, Nat.mul_one]; omega
  rw [h3, Nat.add_mul_div_left _ _ (by omega : 0 < g), Nat.div_eq_of_lt (by omega)]
  omega

theorem getElem?_of_getD (r : List Nat) (i v : Nat) (hi : i < r.length) (h : r.getD i 0 = v) :
    r[i]? = some v := by
  rw [List.getD_eq_getElem?_getD, List.getElem?_eq_getElem hi] at h
  rw [List.getElem?_eq_getElem hi]
  simpa using h

theorem prefix_sum_none_three_two : ∀ (fuel : Nat) (A : List Nat), prefix_sum fuel A 3 2 = none := by
  intro fuel
  induction fuel with
  | zero => intro A; rfl
  | succ fuel ih =>
    intro A
    have hb : b_sums_n 3 2 = 3 := by decide
    simp only [prefix_sum, hb]
    rw [if_neg (by decide), ih]

theorem prefix_sum_none_four_two (fuel : Nat) (A : List Nat) : prefix_sum fuel A 4 2 = none := by
  cases fuel with
  | zero => rfl
  | succ fuel =>
    have hb : b_sums_n 4 2 = 3 := by decide
    simp only [prefix_sum, hb]
    rw [if_neg (by decide), prefix_sum_none_three_two]

theorem prefix_sum_none_five_two (fuel : Nat) (A : List Nat) : prefix_sum fuel A 5 2 = none := by
  cases fuel with
  | zero => rfl
  | succ fuel =>
    have hb : b_sums_n 5 2 = 4 := by decide
    simp only [prefix_sum, hb]
    rw [if_neg (by decide), prefix_sum_none_four_two]

/-- Scan engine, general work-group size `g ≥ 3`: the call returns within `clog_g n + 1`
nested invocations a buffer of `WorkSize g n` elements whose first `n` elements are the
inclusive prefix sums modulo `2 ^ 32`. -/
theorem prefix_sum_spec (A : List Nat) (n g fuel : Nat) (hlen : A.length = n) (hg : 3 ≤ g)
    (hsize : n + g ≤ U32) (hfuel : Nat.clog g n < fuel) :
    ∃ r, prefix_sum fuel A n g = some r ∧ r.length = WorkSize g n ∧
      ∀ i, i < n → r[i]? = some ((A.take (i + 1)).sum % U32) := by
  obtain ⟨r, hr⟩ := prefix_sum_fuel g hg fuel n A
    (Nat.lt_of_le_of_lt (clog_sub_le _ _) hfuel)
  have hl := prefix_sum_length _ _ _ _ _ hr
  rw [res_n_eq n _ hsize (by omega)] at hl
  refine ⟨r, hr, hl, fun i hi => ?_⟩
  have hW := le_WorkSize g n (by omega)
  apply getElem?_of_getD r i _ (by omega)
  rw [prefix_sum_getD g (by omega) fuel n A r hsize hr i hi,
    rangeSum_take A n (i + 1) (by omega) (by omega)]

/-! ## Scan engine: claims -/

/-- C1 (amended): for an input array `A` of `n` words with `n + BLOCK_SIZE ≤ 2 ^ 32` (the
host's rounding of `n` to a multiple of the group size does not wrap), `prefix_sum` with
work-group size `BLOCK_SIZE = 128` returns, within `clog_128 n + 1` nested invocations, a
buffer whose element `i` is `A[0] + ... + A[i]` modulo `2 ^ 32` for every `i < n`, the
recursion over the block sums (`n > 128`) included. -/
theorem prefix_sum_inclusive_scan (A : List Nat) (n fuel : Nat)
    (hlen : A.length = n) (hsize : n + BLOCK_SIZE ≤ U32) (hfuel : Nat.clog BLOCK_SIZE n < fuel) :
    ∃ r, prefix_sum fuel A n BLOCK_SIZE = some r ∧
      ∀ i, i < n → r[i]? = some ((A.take (i + 1)).sum % U32) := by
  obtain ⟨r, hr, _, hall⟩ := prefix_sum_spec A n BLOCK_SIZE fuel hlen (by decide) hsize hfuel
  exact ⟨r, hr, hall⟩

/-- Witness for C1: 130 elements, so that the block sums are scanned recursively. -/
theorem prefix_sum_inclusive_scan_witness :
    ∃ r, prefix_sum 3 (List.replicate 130 7) 130 BLOCK_SIZE = some r ∧
      ∀ i, i < 130 → r[i]? = some (((List.replicate 130 7).take (i + 1)).sum % U32) :=
  prefix_sum_inclusive_scan (List.replicate 130 7) 130 3 (by simp) (by decide)
    (clog_lt_of_le_pow BLOCK_SIZE 130 2 3 (by decide) (by decide) (by decide))

/-- Counterexample to C1 as stated: for `n = 2 ^ 32 - 127` the host computes
`res_n = (n + 127) mod 2 ^ 32 / 128 * 128 = 0`, so the returned buffer is empty. -/
theorem prefix_sum_rounding_wraps :
    ¬ ∃ fuel r, prefix_sum fuel (List.replicate 4294967169 1) 4294967169 BLOCK_SIZE = some r ∧
      ∀ i, i < 4294967169 →
        r[i]? = some (((List.replicate 4294967169 1).take (i + 1)).sum % U32) := by
  rintro ⟨fuel, r, hr, hall⟩
  have hl := prefix_sum_length _ _ _ _ _ hr
  have h0 : res_n 4294967169 BLOCK_SIZE = 0 := by decide
  rw [h0] at hl
  have hnil : r[0]? = none := by rw [List.length_eq_zero.mp hl]; rfl
  have h1 := hall 0 (by decide)
  rw [hnil] at h1
  exact Option.noConfusion h1

/-- C2 (amended): for a work-group size `g ≥ 3` and `n` not a multiple of `g` with
`n + g ≤ 2 ^ 32`, the buffer returned by `prefix_sum` has `(n / g + 1) * g` elements (`n`
rounded up to the next multiple of `g`, not `n`), and its first `n` elements are the
inclusive prefix sums modulo `2 ^ 32`. -/
theorem prefix_sum_padded_buffer (A : List Nat) (n g fuel : Nat) (hlen : A.length = n)
    (hg : 3 ≤ g) (hmul : n % g ≠ 0) (hsize : n + g ≤ U32) (hfuel : Nat.clog g n < fuel) :
    ∃ r, prefix_sum fuel A n g = some r ∧ r.length = (n / g + 1) * g ∧
      ∀ i, i < n → r[i]? = some ((A.take (i + 1)).sum % U32) := by
  obtain ⟨r, hr, hl, hall⟩ := prefix_sum_spec A n g fuel hlen hg hsize hfuel
  exact ⟨r, hr, by rw [hl, WorkSize_of_not_dvd g n (by omega) hmul], hall⟩

/-- Witness for C2: seven elements scanned with groups of three. -/
theorem prefix_sum_padded_buffer_witness :
    ∃ r, prefix_sum 3 [1, 2, 3, 4, 5, 6, 7] 7 3 = some r ∧ r.length = (7 / 3 + 1) * 3 ∧
      ∀ i, i < 7 → r[i]? = some (([1, 2, 3, 4, 5, 6, 7].take (i + 1)).sum % U32) :=
  prefix_sum_padded_buffer [1, 2, 3, 4, 5, 6, 7] 7 3 3 rfl (by decide) (by decide) (by decide)
    (clog_lt_of_le_pow 3 7 2 3 (by decide) (by decide) (by decide))

/-- Counterexample to C2 as stated: one element scanned with groups of 128 comes back in a
buffer of 128 elements, not 1; with groups of 2 a scan of 5 elements never returns; and
for `n = 2 ^ 32 - 1` the rounded size wraps to 0. -/
theorem prefix_sum_buffer_not_n_elements :
    (1 % BLOCK_SIZE ≠ 0 ∧
      ¬ ∃ fuel r, prefix_sum fuel [5] 1 BLOCK_SIZE = some r ∧ r.length = 1) ∧
    (5 % 2 ≠ 0 ∧ ¬ ∃ fuel r, prefix_sum fuel [1, 1, 1, 1, 1] 5 2 = some r) ∧
    (4294967295 % BLOCK_SIZE ≠ 0 ∧
      ¬ ∃ fuel r, prefix_sum fuel (List.replicate 4294967295 1) 4294967295 BLOCK_SIZE = some r ∧
        r[0]? = some 1) := by
  refine ⟨⟨by decide, ?_⟩, ⟨by decide, ?_⟩, ⟨by decide, ?_⟩⟩
  · rintro ⟨fuel, r, hr, hlen⟩
    have hl := prefix_sum_length _ _ _ _ _ hr
    have h0 : res_n 1 BLOCK_SIZE = 128 := by decide
    omega
  · rintro ⟨fuel, r, hr⟩
    rw [prefix_sum_none_five_two] at hr
    exact Option.noConfusion hr
  · rintro ⟨fuel, r, hr, h1⟩
    have hl := prefix_sum_length _ _ _ _ _ hr
    have h0 : res_n 4294967295 BLOCK_SIZE = 0 := by decide
    rw [h0] at hl
    rw [List.length_eq_zero.mp hl] at h1
    exact Option.noConfusion h1

/-- C9 (amended): for every work-group size `g ≥ 3`, every element count `n` and every
input buffer, `prefix_sum` returns as soon as `clog_g n + 1` nested invocations are allowed,
so it makes at most `clog_g n` recursive calls; a call with `n > g` recurses on the
block-sum buffer with `res_n / g + 1` elements and the same `g`. -/
theorem prefix_sum_terminates (A : List Nat) (n g : Nat) (hg : 3 ≤ g) :
    (∀ fuel, Nat.clog g n < fuel → ∃ r, prefix_sum fuel A n g = some r) ∧
    (g < n → ∀ fuel, ∃ b s, prefix_sum (fuel + 1) A n g =
      (prefix_sum fuel b (addU32 (res_n n g / g) 1) g).map fun bs => (scan g A bs s n 0).2) := by
  refine ⟨fun fuel hfuel => prefix_sum_fuel g hg fuel n A
    (Nat.lt_of_le_of_lt (clog_sub_le _ _) hfuel), fun hn fuel => ?_⟩
  refine ⟨(scan g A ((List.replicate (b_sums_n n g) 0).set 0 0)
      (List.replicate (res_n n g) 0) n 1).1,
    (scan g A ((List.replicate (b_sums_n n g) 0).set 0 0)
      (List.replicate (res_n n g) 0) n 1).2, ?_⟩
  simp only [prefix_sum]
  rw [if_neg (by omega)]
  unfold b_sums_n
  split <;> simp_all

/-- Witness for C9: ten elements with groups of three. -/
theorem prefix_sum_terminates_witness :
    (∀ fuel, Nat.clog 3 10 < fuel → ∃ r, prefix_sum fuel (List.range 10) 10 3 = some r) ∧
    (3 < 10 → ∀ fuel, ∃ b s, prefix_sum (fuel + 1) (List.range 10) 10 3 =
      (prefix_sum fuel b (addU32 (res_n 10 3 / 3) 1) 3).map
        fun bs => (scan 3 (List.range 10) bs s 10 0).2) :=
  prefix_sum_terminates (List.range 10) 10 3 (by decide)

/-- Counterexample to C9 as stated: with work-group size 2 a scan of three elements recurses
on three block sums again, so no number of nested invocations suffices. -/
theorem prefix_sum_group_two_diverges :
    ¬ ∃ fuel r, prefix_sum fuel [1, 2, 3] 3 2 = some r := by
  rintro ⟨fuel, r, hr⟩
  rw [prefix_sum_none_three_two] at hr
  exact Option.noConfusion hr

/-! ## Radix sort: lemmas -/

theorem rangeSum_mono (f : Nat → Nat) {a b : Nat} (h : a ≤ b) : rangeSum f a ≤ rangeSum f b := by
  induction b with
  | zero => have : a = 0 := by omega
            subst this; exact Nat.le_refl _
  | succ b ih =>
    rcases Nat.eq_or_lt_of_le h with h1 | h1
    · subst h1; exact Nat.le_refl _
    · have := ih (by omega)
      rw [rangeSum]; omega

theorem mem_buckets (key : Nat → Nat) (A : List Nat) (B x : Nat) :
    x ∈ buckets key A B ↔ x ∈ A ∧ key x < B := by
  induction B with
  | zero => simp [buckets]
  | succ B ih =>
    simp only [buckets, List.mem_append, ih, List.mem_filter, decide_eq_true_eq]
    constructor
    · rintro (⟨h1, h2⟩ | ⟨h1, h2⟩)
      · exact ⟨h1, by omega⟩
      · exact ⟨h1, by omega⟩
    · rintro ⟨h1, h2⟩
      rcases Nat.lt_or_ge (key x) B with h3 | h3
      · exact Or.inl ⟨h1, h3⟩
      · exact Or.inr ⟨h1, by omega⟩

theorem buckets_perm_filter (key : Nat → Nat) (A : List Nat) (B : Nat) :
    (buckets key A B).Perm (A.filter (fun x => key x < B)) := by
  induction B with
  | zero => simp [buckets]
  | succ B ih =>
    simp only [buckets]
    have h1 : (A.filter (fun x => decide (key x < B + 1))).filter (fun x => decide (key x < B))
        = A.filter (fun x => decide (key x < B)) := by
      rw [List.filter_filter]
      apply List.filter_congr
      intro x _
      by_cases h : key x < B
      · simp [h, Nat.lt_succ_of_lt h]
      · simp [h]
    have h2 : (A.filter (fun x => decide (key x < B + 1))).filter (fun x => !decide (key x < B))
        = A.filter (fun x => decide (key x = B)) := by
      rw [List.filter_filter]
      apply List.filter_congr
      intro x _
      by_cases h : key x = B
      · simp [h]
      · by_cases h' : key x < B
        · simp [h, h']
        · have : ¬ key x < B + 1 := by omega
          simp [h, h', this]
    have h3 := List.filter_append_perm (fun x => decide (key x < B))
      (A.filter (fun x => decide (key x < B + 1)))
    rw [h1, h2] at h3
    exact (List.Perm.append_right _ ih).trans h3

theorem buckets_perm (key : Nat → Nat) (A : List Nat) (B : Nat) (hkey : ∀ x ∈ A, key x < B) :
    (buckets key A B).Perm A := by
  have h := buckets_perm_filter key A B
  have h1 : A.filter (fun x => decide (key x < B)) = A := by
    rw [List.filter_eq_self]
    intro x hx
    simpa using hkey x hx
  rwa [h1] at h

theorem buckets_pairwise (key : Nat → Nat) (R R' : Nat → Nat → Prop) (A : List Nat) (B : Nat)
    (hA : A.Pairwise R) (hlt : ∀ x y, key x < key y → R' x y)
    (heq : ∀ x y, key x = key y → R x y → R' x y) :
    (buckets key A B).Pairwise R' := by
  induction B with
  | zero => simp [buckets]
  | succ B ih =>
    simp only [buckets]
    rw [List.pairwise_append]
    refine ⟨ih, ?_, ?_⟩
    · have h1 : (A.filter (fun x => decide (key x = B))).Pairwise R := hA.filter _
      refine List.Pairwise.imp_of_mem ?_ h1
      intro a b ha hb hab
      simp only [List.mem_filter, decide_eq_true_eq] at ha hb
      exact heq a b (by omega) hab
    · intro a ha b hb
      rw [mem_buckets] at ha
      simp only [List.mem_filter, decide_eq_true_eq] at hb
      exact hlt a b (by omega)

theorem buckets_filter (key : Nat → Nat) (A : List Nat) (B d : Nat) (hd : d < B) :
    (buckets key A B).filter (fun x => key x = d) = A.filter (fun x => key x = d) := by
  have aux : ∀ B, (buckets key A B).filter (fun x => decide (key x = d)) =
      if d < B then A.filter (fun x => decide (key x = d)) else [] := by
    intro B
    induction B with
    | zero => simp [buckets]
    | succ B ih =>
      simp only [buckets, List.filter_append, ih, List.filter_filter]
      by_cases h1 : d < B
      · have : A.filter (fun a => decide (key a = d) && decide (key a = B)) = [] := by
          rw [List.filter_eq_nil_iff]
          intro x _
          simp; omega
        simp [h1, this, Nat.lt_succ_of_lt h1]
      · by_cases h2 : d = B
        · subst h2
          simp
        · have : A.filter (fun a => decide (key a = d) && decide (key a = B)) = [] := by
            rw [List.filter_eq_nil_iff]
            intro x _
            simp; omega
          have h3 : ¬ d < B + 1 := by omega
          simp [h1, this, h3]
  rw [aux B, if_pos hd]

theorem indicator_block (key : Nat → Nat) (A : List Nat) (n d u : Nat) (hu : u < n) :
    indicator key A n (d * n + u) = if key (A.getD u 0) = d then 1 else 0 := by
  unfold indicator
  have h1 : (d * n + u) % n = u := by
    rw [Nat.mul_comm, Nat.mul_add_mod, Nat.mod_eq_of_lt hu]
  have h2 : (d * n + u) / n = d := by
    rw [Nat.mul_comm, Nat.mul_add_div (by omega), Nat.div_eq_of_lt hu, Nat.add_zero]
  rw [h1, h2]

theorem rangeSum_filter_take (key : Nat → Nat) (A : List Nat) (d j : Nat) (hj : j ≤ A.length) :
    rangeSum (fun u => if key (A.getD u 0) = d then 1 else 0) j =
      ((A.take j).filter (fun x => key x = d)).length := by
  induction j with
  | zero => simp [rangeSum]
  | succ j ih =>
    have hj' : j < A.length := by omega
    rw [rangeSum, ih (by omega), List.take_succ, List.filter_append, List.length_append]
    congr 1
    simp only [List.getD_eq_getElem?_getD, List.getElem?_eq_getElem hj', Option.getD_some,
      Option.toList]
    by_cases h : key A[j] = d <;> simp [h]

theorem rangeSum_indicator_block (key : Nat → Nat) (A : List Nat) (n d j : Nat)
    (hn : A.length = n) (hj : j ≤ n) :
    rangeSum (indicator key A n) (d * n + j) =
      rangeSum (indicator key A n) (d * n) +
        ((A.take j).filter (fun x => key x = d)).length := by
  rw [rangeSum_add, ← rangeSum_filter_take key A d j (by omega)]
  congr 1
  apply rangeSum_congr
  intro u hu
  exact indicator_block key A n d u (by omega)

theorem rangeSum_indicator_buckets (key : Nat → Nat) (A : List Nat) (n d : Nat)
    (hn : A.length = n) :
    rangeSum (indicator key A n) (d * n) = (buckets key A d).length := by
  induction d with
  | zero => simp [rangeSum, buckets]
  | succ d ih =>
    rw [Nat.succ_mul, rangeSum_indicator_block key A n d n hn (Nat.le_refl _), ih, buckets,
      List.length_append, ← hn, List.take_length]

theorem buckets_length_mono (key : Nat → Nat) (A : List Nat) {d B : Nat} (h : d ≤ B) :
    (buckets key A d).length ≤ (buckets key A B).length := by
  induction B with
  | zero => have : d = 0 := by omega
            subst this; exact Nat.le_refl _
  | succ B ih =>
    rcases Nat.eq_or_lt_of_le h with h1 | h1
    · subst h1; exact Nat.le_refl _
    · have := ih (by omega)
      rw [buckets, List.length_append]; omega

theorem buckets_getElem? (key : Nat → Nat) (A : List Nat) (B d k : Nat) (hd : d < B)
    (hk : k < (A.filter (fun x => key x = d)).length) :
    (buckets key A B)[(buckets key A d).length + k]? = (A.filter (fun x => key x = d))[k]? := by
  induction B with
  | zero => omega
  | succ B ih =>
    rw [buckets]
    rcases Nat.eq_or_lt_of_le (Nat.le_of_lt_succ hd) with h1 | h1
    · subst h1
      rw [List.getElem?_append_right (by omega), Nat.add_sub_cancel_left]
    · have h2 : (buckets key A (d + 1)).length ≤ (buckets key A B).length :=
        buckets_length_mono key A h1
      rw [buckets, List.length_append] at h2
      rw [List.getElem?_append_left (by omega)]
      exact ih h1

theorem filter_getElem?_rank (p : Nat → Bool) (A : List Nat) (j : Nat) (hj : j < A.length)
    (hp : p A[j] = true) :
    (A.filter p)[((A.take j).filter p).length]? = some A[j] := by
  have h1 : A = A.take j ++ A[j] :: A.drop (j + 1) := by
    rw [← List.drop_eq_getElem_cons hj, List.take_append_drop]
  have h2 : A.filter p = (A.take j).filter p ++ A[j] :: (A.drop (j + 1)).filter p := by
    conv_lhs => rw [h1]
    rw [List.filter_append, List.filter_cons_of_pos hp]
  rw [h2, List.getElem?_append_right (Nat.le_refl _), Nat.sub_self]
  simp

theorem filter_rank_lt (p : Nat → Bool) (A : List Nat) (j : Nat) (hj : j < A.length)
    (hp : p A[j] = true) :
    ((A.take j).filter p).length < (A.filter p).length := by
  have h := filter_getElem?_rank p A j hj hp
  by_contra hcon
  rw [List.getElem?_eq_none (by omega)] at h
  exact Option.noConfusion h
/-- Stable destination of element `j`: the number of indicator entries set before its own. -/
theorem dest_eq (key : Nat → Nat) (A : List Nat) (n j : Nat) (hn : A.length = n) (hj : j < n) :
    rangeSum (indicator key A n) (key (A.getD j 0) * n + j) =
      (buckets key A (key (A.getD j 0))).length +
        ((A.take j).filter (fun x => key x = key (A.getD j 0))).length := by
  rw [rangeSum_indicator_block key A n _ j hn (by omega), rangeSum_indicator_buckets key A n _ hn]

theorem getD_eq_getElem (A : List Nat) (j : Nat) (hj : j < A.length) : A.getD j 0 = A[j] := by
  simp [List.getD_eq_getElem?_getD, List.getElem?_eq_getElem hj]

theorem dest_lt (key : Nat → Nat) (A : List Nat) (n B j : Nat) (hn : A.length = n)
    (hkey : ∀ x ∈ A, key x < B) (hj : j < n) :
    rangeSum (indicator key A n) (key (A.getD j 0) * n + j) < n := by
  have hj' : j < A.length := by omega
  rw [dest_eq key A n j hn hj]
  have h1 := filter_rank_lt (fun x => decide (key x = key (A.getD j 0))) A j hj'
    (by rw [getD_eq_getElem A j hj']; simp)
  have h2 : key (A.getD j 0) < B := by
    rw [getD_eq_getElem A j hj']; exact hkey _ (List.getElem_mem _)
  have h3 := buckets_length_mono key A (Nat.succ_le_of_lt h2)
  rw [buckets, List.length_append] at h3
  have h4 := (buckets_perm key A B hkey).length_eq
  omega

theorem dest_strictMono (key : Nat → Nat) (A : List Nat) (n j k : Nat) (hj : j < n)
    (h : key (A.getD j 0) * n + j < key (A.getD k 0) * n + k) :
    rangeSum (indicator key A n) (key (A.getD j 0) * n + j) <
      rangeSum (indicator key A n) (key (A.getD k 0) * n + k) := by
  have h1 := rangeSum_mono (indicator key A n) (Nat.succ_le_of_lt h)
  rw [rangeSum, indicator_block key A n _ j hj, if_pos rfl] at h1
  omega

theorem dest_inj (key : Nat → Nat) (A : List Nat) (n j k : Nat) (hj : j < n) (hk : k < n)
    (h : rangeSum (indicator key A n) (key (A.getD j 0) * n + j) =
      rangeSum (indicator key A n) (key (A.getD k 0) * n + k)) : j = k := by
  rcases Nat.lt_trichotomy (key (A.getD j 0) * n + j) (key (A.getD k 0) * n + k) with h1 | h1 | h1
  · have := dest_strictMono key A n j k hj h1; omega
  · have h2 := congrArg (· % n) h1
    simp only [] at h2
    rw [Nat.mul_comm, Nat.mul_add_mod, Nat.mul_comm, Nat.mul_add_mod, Nat.mod_eq_of_lt hj,
      Nat.mod_eq_of_lt hk] at h2
    exact h2
  · have := dest_strictMono key A n k j hk h1; omega

theorem buckets_getElem?_dest (key : Nat → Nat) (A : List Nat) (n B j : Nat) (hn : A.length = n)
    (hkey : ∀ x ∈ A, key x < B) (hj : j < n) :
    (buckets key A B)[rangeSum (indicator key A n) (key (A.getD j 0) * n + j)]? =
      some (A.getD j 0) := by
  have hj' : j < A.length := by omega
  have hp : (fun x => decide (key x = key (A.getD j 0))) A[j] = true := by
    rw [getD_eq_getElem A j hj']; simp
  have h2 : key (A.getD j 0) < B := by
    rw [getD_eq_getElem A j hj']; exact hkey _ (List.getElem_mem _)
  rw [dest_eq key A n j hn hj,
    buckets_getElem? key A B _ _ h2 (filter_rank_lt _ A j hj' hp),
    filter_getElem?_rank _ A j hj' hp, getD_eq_getElem A j hj']

theorem scatter_length (dest val : Nat → Nat) (bs : List Nat) (m : Nat) :
    ((List.range m).foldl (fun out j => out.set (dest j) (val j)) bs).length = bs.length := by
  induction m with
  | zero => rfl
  | succ m ih => rw [List.range_succ, List.foldl_append]; simpa using ih

theorem scatter_getElem? (dest val : Nat → Nat) (bs : List Nat) (m : Nat)
    (hinj : ∀ j k, j < m → k < m → dest j = dest k → j = k)
    (hlt : ∀ j, j < m → dest j < bs.length) :
    ∀ j, j < m →
      ((List.range m).foldl (fun out j => out.set (dest j) (val j)) bs)[dest j]? =
        some (val j) := by
  induction m with
  | zero => intro j hj; omega
  | succ m ih =>
    intro j hj
    rw [List.range_succ, List.foldl_append]
    simp only [List.foldl_cons, List.foldl_nil]
    rcases Nat.eq_or_lt_of_le (Nat.le_of_lt_succ hj) with h1 | h1
    · subst h1
      rw [List.getElem?_set_self (by rw [scatter_length]; exact hlt j hj)]
    · have hne : dest m ≠ dest j := by
        intro h
        have := hinj m j (by omega) (by omega) h
        omega
      rw [List.getElem?_set_ne hne]
      exact ih (fun a b ha hb => hinj a b (by omega) (by omega))
        (fun a ha => hlt a (by omega)) j h1

theorem exists_dest_eq (dest : Nat → Nat) (n : Nat)
    (hinj : ∀ j k, j < n → k < n → dest j = dest k → j = k)
    (hlt : ∀ j, j < n → dest j < n) (p : Nat) (hp : p < n) : ∃ j, j < n ∧ dest j = p := by
  let f : Fin n → Fin n := fun j => ⟨dest j.1, hlt j.1 j.2⟩
  have hf : Function.Injective f := by
    intro a b hab
    apply Fin.ext
    exact hinj a.1 b.1 a.2 b.2 (by simpa [f] using congrArg Fin.val hab)
  obtain ⟨j, hj⟩ := Finite.surjective_of_injective hf ⟨p, hp⟩
  exact ⟨j.1, j.2, by simpa [f] using congrArg Fin.val hj⟩

/-- A scatter along the stable destinations produces the stable bucket partition. -/
theorem scatter_eq_buckets (key : Nat → Nat) (A bs : List Nat) (n B : Nat) (dest : Nat → Nat)
    (hn : A.length = n) (hbs : bs.length = n) (hkey : ∀ x ∈ A, key x < B)
    (hdest : ∀ j, j < n → dest j = rangeSum (indicator key A n) (key (A.getD j 0) * n + j)) :
    (List.range n).foldl (fun out j => out.set (dest j) (A.getD j 0)) bs = buckets key A B := by
  have hinj : ∀ j k, j < n → k < n → dest j = dest k → j = k := by
    intro j k hj hk h
    rw [hdest j hj, hdest k hk] at h
    exact dest_inj key A n j k hj hk h
  have hlt : ∀ j, j < n → dest j < n := by
    intro j hj
    rw [hdest j hj]
    exact dest_lt key A n B j hn hkey hj
  apply List.ext_getElem?
  intro p
  rcases Nat.lt_or_ge p n with hp | hp
  · obtain ⟨j, hj, hjp⟩ := exists_dest_eq dest n hinj hlt p hp
    rw [← hjp, scatter_getElem? dest _ bs n hinj (by rw [hbs]; exact hlt) j hj, hdest j hj,
      buckets_getElem?_dest key A n B j hn hkey hj]
  · rw [List.getElem?_eq_none (by rw [scatter_length]; omega),
      List.getElem?_eq_none (by rw [(buckets_perm key A B hkey).length_eq]; omega)]
theorem digit_lt (x i mw : Nat) : digit x i mw < 2 ^ mw :=
  Nat.mod_lt _ (Nat.pow_pos (by decide))

theorem rangeSum_le (f : Nat → Nat) (hf : ∀ p, f p ≤ 1) (k : Nat) : rangeSum f k ≤ k := by
  induction k with
  | zero => exact Nat.le_refl _
  | succ k ih => rw [rangeSum]; have := hf k; omega

theorem indicator_le_one (key : Nat → Nat) (A : List Nat) (n p : Nat) :
    indicator key A n p ≤ 1 := by
  unfold indicator; split <;> omega

theorem count_length (A c : List Nat) (n i mw : Nat) : (count A c n i mw).length = c.length := by
  simp [count]

theorem count_getD (A c : List Nat) (n i mw p : Nat) (hc : c.length = n * 2 ^ mw)
    (hp : p < n * 2 ^ mw) :
    (count A c n i mw).getD p 0 = indicator (fun x => digit x i mw) A n p := by
  unfold count
  rw [getD_map_range _ _ _ (by omega), if_pos hp]
  rfl

/-- The inclusive scan of the indicator array, read at the entry of element `j`, is one more
than the stable destination of `j`. -/
theorem reorder_dest (A c s : List Nat) (n i mw fuel g : Nat) (hg : 2 ≤ g)
    (hc : c.length = n * 2 ^ mw) (hsz : n * 2 ^ mw + g ≤ U32)
    (hs : prefix_sum fuel (count A c n i mw) (n * 2 ^ mw) g = some s) (j : Nat) (hj : j < n) :
    subU32 (s.getD (digit (A.getD j 0) i mw * n + j) 0) 1 =
      rangeSum (indicator (fun x => digit x i mw) A n) (digit (A.getD j 0) i mw * n + j) := by
  have hd := digit_lt (A.getD j 0) i mw
  have hpos : digit (A.getD j 0) i mw * n + j < n * 2 ^ mw := by
    have h1 : (digit (A.getD j 0) i mw + 1) * n ≤ 2 ^ mw * n := Nat.mul_le_mul_right n hd
    rw [Nat.succ_mul] at h1
    rw [Nat.mul_comm n]
    omega
  rw [prefix_sum_getD g hg fuel _ _ s hsz hs _ hpos]
  have hcongr : rangeSum (lane (count A c n i mw) (n * 2 ^ mw))
      (digit (A.getD j 0) i mw * n + j + 1) =
      rangeSum (indicator (fun x => digit x i mw) A n) (digit (A.getD j 0) i mw * n + j + 1) := by
    apply rangeSum_congr
    intro p hp
    rw [lane_lt _ _ _ (by omega), count_getD A c n i mw p hc (by omega)]
  rw [hcongr]
  have hle := rangeSum_le _ (indicator_le_one (fun x => digit x i mw) A n)
    (digit (A.getD j 0) i mw * n + j + 1)
  rw [Nat.mod_eq_of_lt (by omega)]
  rw [rangeSum] at hle ⊢
  rw [indicator_block (fun x => digit x i mw) A n _ j hj, if_pos rfl] at hle ⊢
  unfold subU32
  unfold U32 at *
  omega

theorem mulU32_four (n : Nat) (h : n * 2 ^ 2 < U32) : mulU32 n (1 <<< 2) = n * 2 ^ 2 := by
  unfold mulU32
  exact Nat.mod_eq_of_lt h

/-- One iteration of the loop of `radix`: the caller's buffer receives the stable bucket
partition of its previous content by the digit at offset `i`. -/
theorem radix_step_spec (fuel n i : Nat) (st : RadixState) (hn : st.as_gpu.length = n)
    (hc : st.counts_gpu.length = n * 2 ^ 2) (hb : st.bs_gpu.length = n)
    (hsz : n * 2 ^ 2 + BLOCK_SIZE ≤ U32) (hfuel : Nat.clog BLOCK_SIZE (n * 2 ^ 2) < fuel) :
    ∃ st', radix_step fuel n 2 BLOCK_SIZE st i = some st' ∧
      st'.as_gpu = buckets (fun x => digit x i 2) st.as_gpu (2 ^ 2) ∧
      st'.counts_gpu.length = n * 2 ^ 2 ∧ st'.bs_gpu = st.as_gpu := by
  have hN : mulU32 n (1 <<< 2) = n * 2 ^ 2 := mulU32_four n (by unfold BLOCK_SIZE at hsz; omega)
  obtain ⟨s, hs⟩ := prefix_sum_fuel BLOCK_SIZE (by decide) fuel (n * 2 ^ 2)
    (count st.as_gpu st.counts_gpu n i 2) (Nat.lt_of_le_of_lt (clog_sub_le _ _) hfuel)
  refine ⟨⟨reorder st.as_gpu s st.bs_gpu n i 2, count st.as_gpu st.counts_gpu n i 2,
    st.as_gpu⟩, ?_, ?_, ?_, rfl⟩
  · simp only [radix_step, hN, hs]
  · unfold reorder
    exact scatter_eq_buckets (fun x => digit x i 2) st.as_gpu st.bs_gpu n (2 ^ 2) _ hn hb
      (fun x _ => digit_lt x i 2)
      (fun j hj => reorder_dest st.as_gpu st.counts_gpu s n i 2 fuel BLOCK_SIZE (by decide)
        hc hsz hs j hj)
  · rw [count_length, hc]
theorem digit_mod_succ (x k : Nat) :
    x % 4 ^ (k + 1) = x % 4 ^ k + 4 ^ k * digit x (2 * k) 2 := by
  unfold digit
  rw [Nat.pow_mul, Nat.mod_pow_succ]
  rfl

theorem lsd_lt (x y k : Nat) (h : digit x (2 * k) 2 < digit y (2 * k) 2) :
    x % 4 ^ (k + 1) ≤ y % 4 ^ (k + 1) := by
  rw [digit_mod_succ, digit_mod_succ]
  have h1 : x % 4 ^ k < 4 ^ k := Nat.mod_lt _ (Nat.pow_pos (by decide))
  have h2 : 4 ^ k * (digit x (2 * k) 2 + 1) ≤ 4 ^ k * digit y (2 * k) 2 :=
    Nat.mul_le_mul_left _ h
  rw [Nat.mul_succ] at h2
  omega

theorem lsd_eq (x y k : Nat) (h : digit x (2 * k) 2 = digit y (2 * k) 2)
    (hxy : x % 4 ^ k ≤ y % 4 ^ k) : x % 4 ^ (k + 1) ≤ y % 4 ^ (k + 1) := by
  rw [digit_mod_succ, digit_mod_succ, h]
  omega

/-- The bit offsets `0, 2, ..., 2 * (k - 1)` of the first `k` iterations. -/
theorem radix_offsets_two : radix_offsets 2 = (List.range 16).map (fun t => 2 * t) := by
  decide

/-- Loop invariant of `radix`: after `k` iterations the caller's buffer is a permutation of
the input ordered by the low `2 * k` bits. -/
theorem radix_loop_spec (fuel n : Nat) (st : RadixState) (hn : st.as_gpu.length = n)
    (hc : st.counts_gpu.length = n * 2 ^ 2) (hb : st.bs_gpu.length = n)
    (hsz : n * 2 ^ 2 + BLOCK_SIZE ≤ U32) (hfuel : Nat.clog BLOCK_SIZE (n * 2 ^ 2) < fuel)
    (k : Nat) :
    ∃ st', ((List.range k).map (fun t => 2 * t)).foldlM (radix_step fuel n 2 BLOCK_SIZE) st
        = some st' ∧
      st'.as_gpu.Perm st.as_gpu ∧
      st'.as_gpu.Pairwise (fun x y => x % 4 ^ k ≤ y % 4 ^ k) ∧
      st'.counts_gpu.length = n * 2 ^ 2 ∧ st'.bs_gpu.length = n := by
  induction k with
  | zero =>
    refine ⟨st, rfl, List.Perm.refl _, ?_, hc, hb⟩
    exact List.pairwise_of_forall (fun x y => by simp [Nat.mod_one])
  | succ k ih =>
    obtain ⟨st1, h1, hperm, hpw, hc1, hb1⟩ := ih
    have hn1 : st1.as_gpu.length = n := by rw [hperm.length_eq, hn]
    obtain ⟨st2, h2, has, hc2, hbs⟩ := radix_step_spec fuel n (2 * k) st1 hn1 hc1 hb1 hsz hfuel
    refine ⟨st2, ?_, ?_, ?_, hc2, ?_⟩
    · rw [List.range_succ, List.map_append, List.foldlM_append, h1]
      simpa using h2
    · rw [has]
      exact (buckets_perm _ _ _ (fun x _ => digit_lt x (2 * k) 2)).trans hperm
    · rw [has]
      exact buckets_pairwise (fun x => digit x (2 * k) 2) _ _ st1.as_gpu (2 ^ 2) hpw
        (fun x y h => lsd_lt x y k h) (fun x y h hxy => lsd_eq x y k h hxy)
    · rw [hbs, hn1]

/-- Full radix sort: sixteen stable passes over two-bit digits sort 32-bit keys. -/
theorem radix_spec (A : List Nat) (n fuel : Nat) (hn : A.length = n)
    (hA : ∀ x ∈ A, x < U32) (hsz : n * 2 ^ 2 + BLOCK_SIZE ≤ U32)
    (hfuel : Nat.clog BLOCK_SIZE (n * 2 ^ 2) < fuel) :
    ∃ out, radix fuel A n = some out ∧ out.Perm A ∧ out.Sorted (· ≤ ·) := by
  have hN : mulU32 n (1 <<< 2) = n * 2 ^ 2 := mulU32_four n (by unfold BLOCK_SIZE at hsz; omega)
  obtain ⟨st', h1, hperm, hpw, _, _⟩ := radix_loop_spec fuel n
    ⟨A, List.replicate (mulU32 n (1 <<< 2)) 0, List.replicate n 0⟩ hn
    (by show (List.replicate (mulU32 n (1 <<< 2)) 0).length = n * 2 ^ 2
        rw [List.length_replicate, hN])
    (by simp) hsz hfuel 16
  refine ⟨st'.as_gpu, ?_, hperm, ?_⟩
  · simp only [radix, radix_offsets_two, h1, Option.map_some']
  · refine List.Pairwise.imp_of_mem ?_ hpw
    intro a b ha hb hab
    have ha' := hA a (hperm.mem_iff.mp ha)
    have hb' := hA b (hperm.mem_iff.mp hb)
    have h16 : 4 ^ 16 = U32 := by decide
    rwa [h16, Nat.mod_eq_of_lt ha', Nat.mod_eq_of_lt hb'] at hab
theorem scatter_out_of_range (dest val : Nat → Nat) (bs : List Nat) (l : List Nat)
    (h : ∀ j, bs.length ≤ dest j) :
    l.foldl (fun out j => out.set (dest j) (val j)) bs = bs := by
  induction l with
  | nil => rfl
  | cons j l ih => rw [List.foldl_cons, List.set_eq_of_length_le (h j), ih]

theorem reorder_nil (A bs : List Nat) (i mw : Nat) (hb : bs.length < U32) (n : Nat) :
    reorder A [] bs n i mw = bs := by
  unfold reorder
  apply scatter_out_of_range
  intro j
  have h0 : subU32 0 1 = 4294967295 := by decide
  have : subU32 ([].getD (digit (A.getD j 0) i mw * n + j) 0) 1 = 4294967295 := by
    rw [← h0]; rfl
  rw [this]
  unfold U32 at hb
  omega

/-- When the rounded size of the indicator array wraps to `0`, the scan result is empty and
an iteration of `radix` only exchanges the two buffers. -/
theorem radix_step_wrapped (fuel n i : Nat) (st st' : RadixState)
    (hw : res_n (mulU32 n (1 <<< 2)) BLOCK_SIZE = 0) (hb : st.bs_gpu.length < U32)
    (h : radix_step fuel n 2 BLOCK_SIZE st i = some st') :
    st'.as_gpu = st.bs_gpu ∧ st'.bs_gpu = st.as_gpu := by
  simp only [radix_step] at h
  split at h
  · exact Option.noConfusion h
  · rename_i s hs
    have hl := prefix_sum_length _ _ _ _ _ hs
    rw [hw] at hl
    rw [List.length_eq_zero.mp hl, reorder_nil _ _ _ _ hb] at h
    cases h
    exact ⟨rfl, rfl⟩

theorem radix_loop_wrapped (fuel n : Nat) (hw : res_n (mulU32 n (1 <<< 2)) BLOCK_SIZE = 0) :
    ∀ (l : List Nat) (st st' : RadixState), st.as_gpu.length < U32 → st.bs_gpu.length < U32 →
      l.foldlM (radix_step fuel n 2 BLOCK_SIZE) st = some st' →
      (l.length % 2 = 0 → st'.as_gpu = st.as_gpu) ∧ (l.length % 2 = 1 → st'.as_gpu = st.bs_gpu) := by
  intro l
  induction l with
  | nil =>
    intro st st' _ _ h
    simp only [List.foldlM_nil] at h
    cases h
    exact ⟨fun _ => rfl, fun h => by simp at h⟩
  | cons i l ih =>
    intro st st' ha hb h
    rw [List.foldlM_cons] at h
    cases h1 : radix_step fuel n 2 BLOCK_SIZE st i with
    | none => rw [h1] at h; exact Option.noConfusion h
    | some st1 =>
      rw [h1] at h
      obtain ⟨e1, e2⟩ := radix_step_wrapped fuel n i st st1 hw hb h1
      have := ih st1 st' (by rw [e1]; exact hb) (by rw [e2]; exact ha) h
      rw [e1, e2] at this
      rw [List.length_cons]
      exact ⟨fun h0 => this.2 (by omega), fun h0 => this.1 (by omega)⟩

theorem radix_wrapped (fuel n : Nat) (A out : List Nat)
    (hw : res_n (mulU32 n (1 <<< 2)) BLOCK_SIZE = 0) (hA : A.length < U32) (hn : n < U32)
    (h : radix fuel A n = some out) : out = A := by
  simp only [radix, Option.map_eq_some'] at h
  obtain ⟨st', h1, h2⟩ := h
  have := (radix_loop_wrapped fuel n hw _ _ st' hA (by simpa using hn) h1).1 (by decide)
  rw [← h2, this]

theorem not_sorted_two_cons_ones (m : Nat) (hm : m ≠ 0) :
    ¬ (2 :: List.replicate m 1).Sorted (· ≤ ·) := by
  intro h
  have h1 := List.rel_of_sorted_cons h 1 (List.mem_replicate.mpr ⟨hm, rfl⟩)
  omega
/-! ## Radix sort: claims -/

/-- C3 (amended): for every array `A` of `n` unsigned 32-bit integers with
`4 * n + 128 ≤ 2 ^ 32` (the indicator array of `n * 4` entries and its rounding to a
multiple of the group size fit an `unsigned int`), `radix` returns and leaves in the caller's
buffer the ascending sort of `A`: a sorted permutation of `A`, equal to the output of a
reference sort. -/
theorem radix_sorts (A : List Nat) (n fuel : Nat) (hn : A.length = n)
    (hA : ∀ x ∈ A, x < U32) (hsz : 4 * n + BLOCK_SIZE ≤ U32)
    (hfuel : Nat.clog BLOCK_SIZE (4 * n) < fuel) :
    ∃ out, radix fuel A n = some out ∧ out.Perm A ∧ out.Sorted (· ≤ ·) ∧
      out = A.insertionSort (· ≤ ·) := by
  have h4 : n * 2 ^ 2 = 4 * n := by omega
  obtain ⟨out, h1, hperm, hsorted⟩ := radix_spec A n fuel hn hA (by rw [h4]; exact hsz)
    (by rw [h4]; exact hfuel)
  refine ⟨out, h1, hperm, hsorted, ?_⟩
  exact List.eq_of_perm_of_sorted (hperm.trans (List.perm_insertionSort _ A).symm) hsorted
    (List.sorted_insertionSort _ A)

/-- Witness for C3. -/
theorem radix_sorts_witness :
    ∃ out, radix 2 [5, 3, 4294967295, 9, 1, 3] 6 = some out ∧
      out.Perm [5, 3, 4294967295, 9, 1, 3] ∧ out.Sorted (· ≤ ·) ∧
      out = [5, 3, 4294967295, 9, 1, 3].insertionSort (· ≤ ·) :=
  radix_sorts [5, 3, 4294967295, 9, 1, 3] 6 2 rfl (by decide) (by decide)
    (clog_lt_of_le_pow BLOCK_SIZE (4 * 6) 1 2 (by decide) (by decide) (by decide))

/-- Counterexample to C3 as stated: for `n = 2 ^ 30 - 31` the scan of the `4 * n` indicator
entries rounds its size to `(4 * n + 127) mod 2 ^ 32 / 128 * 128 = 0` and returns an empty
buffer, every destination read by the reorder pass is out of range, and the caller's buffer
is left unsorted. -/
theorem radix_size_wraps :
    ¬ ∃ fuel, radix fuel (2 :: List.replicate 1073741792 1) 1073741793 =
      some ((2 :: List.replicate 1073741792 1).insertionSort (· ≤ ·)) := by
  rintro ⟨fuel, h⟩
  have hw : res_n (mulU32 1073741793 (1 <<< 2)) BLOCK_SIZE = 0 := by decide
  have hlen : (2 :: List.replicate 1073741792 1).length < U32 := by
    rw [List.length_cons, List.length_replicate]; decide
  have h1 := radix_wrapped fuel _ _ _ hw hlen (by decide) h
  have h2 := List.sorted_insertionSort (· ≤ ·) (2 :: List.replicate 1073741792 1)
  rw [h1] at h2
  exact not_sorted_two_cons_ones 1073741792 (by decide) h2

/-- C8 (amended): for every array `A` of `n` unsigned integers with `4 * n + 128 ≤ 2 ^ 32`
and every bit offset `i`, one iteration of the loop of `radix` (count, scan, reorder, swap)
is a stable sort by the 2-bit digit at offset `i`: the new content of the caller's buffer is
a permutation of the old one, ordered by that digit, and for each digit value the elements
with that digit appear in their input order; the old content is now in the scratch
buffer. -/
theorem radix_step_stable (A counts bs : List Nat) (n i fuel : Nat) (hn : A.length = n)
    (hc : counts.length = mulU32 n (1 <<< 2)) (hb : bs.length = n)
    (hsz : 4 * n + BLOCK_SIZE ≤ U32) (hfuel : Nat.clog BLOCK_SIZE (4 * n) < fuel) :
    ∃ st', radix_step fuel n 2 BLOCK_SIZE ⟨A, counts, bs⟩ i = some st' ∧
      st'.as_gpu.Perm A ∧
      st'.as_gpu.Pairwise (fun x y => digit x i 2 ≤ digit y i 2) ∧
      (∀ d, st'.as_gpu.filter (fun x => digit x i 2 = d) = A.filter (fun x => digit x i 2 = d)) ∧
      st'.bs_gpu = A := by
  have h4 : n * 2 ^ 2 = 4 * n := by omega
  have hN : mulU32 n (1 <<< 2) = n * 2 ^ 2 := mulU32_four n (by unfold BLOCK_SIZE at hsz; omega)
  obtain ⟨st', h1, has, _, hbs⟩ := radix_step_spec fuel n i ⟨A, counts, bs⟩ hn
    (by rw [← hN]; exact hc) hb (by rw [h4]; exact hsz) (by rw [h4]; exact hfuel)
  have has' : st'.as_gpu = buckets (fun x => digit x i 2) A (2 ^ 2) := has
  refine ⟨st', h1, ?_, ?_, ?_, hbs⟩
  · rw [has']
    exact buckets_perm _ _ _ (fun x _ => digit_lt x i 2)
  · rw [has']
    exact buckets_pairwise (fun x => digit x i 2) (fun _ _ => True) _ A (2 ^ 2)
      (List.pairwise_of_forall (fun _ _ => trivial)) (fun x y h => Nat.le_of_lt h)
      (fun x y h _ => Nat.le_of_eq h)
  · intro d
    rw [has']
    rcases Nat.lt_or_ge d (2 ^ 2) with hd | hd
    · exact buckets_filter (fun x => digit x i 2) A (2 ^ 2) d hd
    · have hnil : ∀ l : List Nat, l.filter (fun x => decide (digit x i 2 = d)) = [] := by
        intro l
        rw [List.filter_eq_nil_iff]
        intro x _
        have := digit_lt x i 2
        simp only [decide_eq_true_eq]
        omega
      rw [hnil, hnil]

/-- Witness for C8: five keys, digit at bit offset 2. -/
theorem radix_step_stable_witness :
    ∃ st', radix_step 2 5 2 BLOCK_SIZE ⟨[7, 2, 13, 0, 5], List.replicate 20 0,
        List.replicate 5 0⟩ 2 = some st' ∧
      st'.as_gpu.Perm [7, 2, 13, 0, 5] ∧
      st'.as_gpu.Pairwise (fun x y => digit x 2 2 ≤ digit y 2 2) ∧
      (∀ d, st'.as_gpu.filter (fun x => digit x 2 2 = d) =
        [7, 2, 13, 0, 5].filter (fun x => digit x 2 2 = d)) ∧
      st'.bs_gpu = [7, 2, 13, 0, 5] :=
  radix_step_stable [7, 2, 13, 0, 5] (List.replicate 20 0) (List.replicate 5 0) 5 2 2 rfl
    (by decide) (by decide) (by decide)
    (clog_lt_of_le_pow BLOCK_SIZE (4 * 5) 1 2 (by decide) (by decide) (by decide))

/-- Counterexample to C8 as stated: for `n = 2 ^ 30 - 31` the scanned offsets come back
empty (the rounded size of the scan wraps to `0`), the reorder pass writes nothing, and the
caller's buffer receives the scratch content instead of a permutation of its own. -/
theorem radix_step_size_wraps :
    ¬ ∃ fuel st', radix_step fuel 1073741793 2 BLOCK_SIZE
        ⟨List.replicate 1073741793 1, List.replicate (mulU32 1073741793 (1 <<< 2)) 0,
          List.replicate 1073741793 0⟩ 0 = some st' ∧
      st'.as_gpu.Perm (List.replicate 1073741793 1) := by
  rintro ⟨fuel, st', h, hperm⟩
  have hw : res_n (mulU32 1073741793 (1 <<< 2)) BLOCK_SIZE = 0 := by decide
  have h1 := (radix_step_wrapped fuel _ _ _ st' hw
    (by show (List.replicate 1073741793 0).length < U32
        rw [List.length_replicate]; decide) h).1
  have h2 : (1 : Nat) ∈ st'.as_gpu :=
    hperm.mem_iff.mpr (List.mem_replicate.mpr ⟨by decide, rfl⟩)
  rw [h1] at h2
  have h3 := List.eq_of_mem_replicate h2
  exact absurd h3 (by decide)
/-! ## Bitonic sort: dispatch trace -/

theorem round_up_spec (n wg : Nat) (hwg : 1 ≤ wg) :
    wg ∣ round_up n wg ∧ n ≤ round_up n wg ∧ ∀ m, wg ∣ m → n ≤ m → round_up n wg ≤ m := by
  refine ⟨Dvd.intro_left _ rfl, le_WorkSize wg n hwg, ?_⟩
  rintro m ⟨c, rfl⟩ hm
  unfold round_up
  rw [Nat.mul_comm wg c]
  apply Nat.mul_le_mul_right
  apply Nat.le_of_lt_succ
  rw [Nat.div_lt_iff_lt_mul (by omega)]
  rw [Nat.succ_mul, Nat.mul_comm c wg]
  omega

theorem gw_size_eq (n wg : Nat) (h : n + wg ≤ U32) (hwg : 1 ≤ wg) :
    gw_size n wg = round_up n wg :=
  res_n_eq n wg h hwg

/-- The strides `2 ^ t, ..., 2, 1`. -/
theorem strides_succ (t : Nat) :
    ((List.range (t + 2)).map fun u => 2 ^ (t + 2) / 2 ^ (u + 1)) =
      2 ^ (t + 1) :: ((List.range (t + 1)).map fun u => 2 ^ (t + 1) / 2 ^ (u + 1)) := by
  rw [List.range_succ_eq_map, List.map_cons, List.map_map]
  congr 1
  · rw [Nat.pow_succ, Nat.zero_add, Nat.pow_one, Nat.mul_div_cancel _ (by decide)]
  · apply List.map_congr_left
    intro u _
    simp only [Function.comp]
    rw [Nat.pow_succ 2 (u + 1), Nat.pow_succ 2 (t + 1), Nat.mul_div_mul_right _ _ (by decide)]

theorem strides_filter_nil (wg t w : Nat) (hwg : wg = 2 ^ w) (ht : t ≤ w) :
    (((List.range t).map fun u => 2 ^ t / 2 ^ (u + 1)).filter fun skip => skip * 2 > wg) = [] := by
  rw [List.filter_eq_nil_iff]
  intro x hx
  rw [List.mem_map] at hx
  obtain ⟨u, hu, rfl⟩ := hx
  rw [List.mem_range] at hu
  have h1 : 2 ^ t / 2 ^ (u + 1) * 2 ≤ 2 ^ t := by
    have := Nat.div_mul_le_self (2 ^ t) (2 ^ (u + 1))
    have h2 : 2 ≤ 2 ^ (u + 1) := by
      calc 2 = 2 ^ 1 := rfl
        _ ≤ 2 ^ (u + 1) := Nat.pow_le_pow_right (by decide) (by omega)
    calc 2 ^ t / 2 ^ (u + 1) * 2 ≤ 2 ^ t / 2 ^ (u + 1) * 2 ^ (u + 1) :=
          Nat.mul_le_mul_left _ h2
      _ ≤ 2 ^ t := this
  have h3 : 2 ^ t ≤ 2 ^ w := Nat.pow_le_pow_right (by decide) ht
  simp only [gt_iff_lt, decide_eq_true_eq, not_lt]
  omega
theorem two_pow_lt_U32 (t : Nat) (ht : t ≤ 31) : 2 ^ t < U32 := by
  have h : 2 ^ t ≤ 2 ^ 31 := Nat.pow_le_pow_right (by decide) ht
  have : (2 : Nat) ^ 31 < U32 := by decide
  omega

theorem mulU32_two_pow (t : Nat) (ht : t ≤ 30) : mulU32 (2 ^ t) 2 = 2 ^ (t + 1) := by
  unfold mulU32
  rw [← Nat.pow_succ]
  exact Nat.mod_eq_of_lt (two_pow_lt_U32 (t + 1) (by omega))

theorem two_pow_div_two (t : Nat) : 2 ^ (t + 1) / 2 = 2 ^ t := by
  rw [Nat.pow_succ, Nat.mul_div_cancel _ (by decide)]

/-- Dispatches of the inner loop of `bitonic` started at `skip = 2 ^ t`. -/
theorem skip_loop_trace (wg w gw n bsize : Nat) (hwg : wg = 2 ^ w) (hw : 1 ≤ w) :
    ∀ (t fuel : Nat) (tr : List BitonicPass), t < fuel → t ≤ 30 →
      bitonic_skip_loop
          (fun bsize skip tr => tr ++ [BitonicPass.large wg gw n bsize skip]) wg bsize fuel
          (2 ^ t) tr =
        (tr ++ ((((List.range (t + 1)).map fun u => 2 ^ (t + 1) / 2 ^ (u + 1)).filter
            fun skip => skip * 2 > wg).map fun skip => BitonicPass.large wg gw n bsize skip),
          min (2 ^ t) (wg / 2)) := by
  have hhalf : wg / 2 = 2 ^ (w - 1) := by
    obtain ⟨v, rfl⟩ : ∃ v, w = v + 1 := ⟨w - 1, by omega⟩
    rw [hwg, two_pow_div_two]; rfl
  intro t
  induction t with
  | zero =>
    intro fuel tr hf _
    obtain ⟨f, rfl⟩ : ∃ f, fuel = f + 1 := ⟨fuel - 1, by omega⟩
    have h2 : 2 ≤ wg := by
      rw [hwg]
      calc 2 = 2 ^ 1 := rfl
        _ ≤ 2 ^ w := Nat.pow_le_pow_right (by decide) hw
    have h1 : ¬ mulU32 (2 ^ 0) 2 > wg := by
      have : mulU32 (2 ^ 0) 2 = 2 := by decide
      omega
    simp only [bitonic_skip_loop, if_neg h1]
    rw [strides_filter_nil wg 1 w hwg hw]
    simp only [List.map_nil, List.append_nil, Nat.pow_zero]
    congr 1
    omega
  | succ t ih =>
    intro fuel tr hf ht
    obtain ⟨f, rfl⟩ : ∃ f, fuel = f + 1 := ⟨fuel - 1, by omega⟩
    simp only [bitonic_skip_loop, mulU32_two_pow (t + 1) ht, two_pow_div_two]
    by_cases hcmp : w < t + 2
    · have h1 : 2 ^ (t + 1 + 1) > wg := by
        rw [hwg]; exact Nat.pow_lt_pow_right (by decide) hcmp
      rw [if_pos h1, ih f _ (by omega) (by omega), strides_succ t]
      have hkeep : decide (2 ^ (t + 1) * 2 > wg) = true := by
        rw [← Nat.pow_succ]; simpa using h1
      simp only [List.filter_cons, hkeep, if_true, List.map_cons, List.append_assoc,
        List.singleton_append]
      congr 1
      have h3 : 2 ^ (w - 1) ≤ 2 ^ t := Nat.pow_le_pow_right (by decide) (by omega)
      have h4 : 2 ^ t ≤ 2 ^ (t + 1) := Nat.pow_le_pow_right (by decide) (by omega)
      rw [hhalf]
      omega
    · have h1 : ¬ 2 ^ (t + 1 + 1) > wg := by
        rw [hwg]
        exact Nat.not_lt.mpr (Nat.pow_le_pow_right (by decide : 2 > 0) (by omega : t + 1 + 1 ≤ w))
      rw [if_neg h1, strides_filter_nil wg (t + 2) w hwg (by omega)]
      simp only [List.map_nil, List.append_nil]
      congr 1
      have h3 : 2 ^ (t + 1) ≤ 2 ^ (w - 1) := Nat.pow_le_pow_right (by decide) (by omega)
      rw [hhalf]
      omega
theorem expected_stage_pow (wg n t : Nat) :
    expected_stage wg n (2 ^ (t + 1)) =
      ((((List.range (t + 1)).map fun u => 2 ^ (t + 1) / 2 ^ (u + 1)).filter
          fun skip => skip * 2 > wg).map
        fun skip => BitonicPass.large wg (round_up n wg) n (2 ^ (t + 1)) skip) ++
      [BitonicPass.small wg (round_up n wg) n (2 ^ (t + 1)) (min (2 ^ t) (wg / 2))] := by
  unfold expected_stage
  rw [Nat.log_pow (by decide), two_pow_div_two]

/-- Dispatches of the outer loop of `bitonic` from stage `bsize = 2 ^ (t + 1)`, when `r`
stages remain. -/
theorem bitonic_loop_trace (wg w n : Nat) (hwg : wg = 2 ^ w) (hw : 1 ≤ w)
    (hn : n ≤ 2 ^ 30) :
    ∀ (r t fuel : Nat) (tr : List BitonicPass), t + r = Nat.clog 2 n → r < fuel →
      bitonic_loop
          (fun bsize skip tr => tr ++ [BitonicPass.large wg (round_up n wg) n bsize skip])
          (fun bsize skip tr => tr ++ [BitonicPass.small wg (round_up n wg) n bsize skip])
          n wg fuel (2 ^ (t + 1)) tr =
        some (tr ++ ((List.range r).map fun u => 2 ^ (t + u + 1)).flatMap
          (expected_stage wg n)) := by
  have hK : Nat.clog 2 n ≤ 30 := (Nat.le_pow_iff_clog_le (by decide)).mp hn
  intro r
  induction r with
  | zero =>
    intro t fuel tr ht hf
    obtain ⟨f, rfl⟩ : ∃ f, fuel = f + 1 := ⟨fuel - 1, by omega⟩
    have h1 : ¬ 2 ^ (t + 1) / 2 < n := by
      rw [two_pow_div_two, Nat.pow_lt_iff_lt_clog (by decide)]
      omega
    simp only [bitonic_loop, if_neg h1, List.range_zero, List.map_nil, List.flatMap_nil,
      List.append_nil]
  | succ r ih =>
    intro t fuel tr ht hf
    obtain ⟨f, rfl⟩ : ∃ f, fuel = f + 1 := ⟨fuel - 1, by omega⟩
    have h1 : 2 ^ (t + 1) / 2 < n := by
      rw [two_pow_div_two, Nat.pow_lt_iff_lt_clog (by decide)]
      omega
    simp only [bitonic_loop, if_pos h1]
    have hsplit : ((List.range (r + 1)).map fun u => 2 ^ (t + u + 1)).flatMap
          (expected_stage wg n) =
        expected_stage wg n (2 ^ (t + 1)) ++
          ((List.range r).map fun u => 2 ^ (t + 1 + u + 1)).flatMap (expected_stage wg n) := by
      rw [List.range_succ_eq_map r, List.map_cons, List.flatMap_cons, List.map_map]
      congr 2
      apply List.map_congr_left
      intro u _
      simp only [Function.comp]
      congr 1
      omega
    rw [two_pow_div_two, skip_loop_trace wg w (round_up n wg) n (2 ^ (t + 1)) hwg hw t (2 ^ t) tr
      (Nat.lt_two_pow t) (by omega), mulU32_two_pow (t + 1) (by omega),
      ih (t + 1) f _ (by omega) (by omega), hsplit, expected_stage_pow]
    simp only [List.append_assoc]

/-- C10 (amended): for `1 ≤ n ≤ 2 ^ 30` and a power-of-two work-group size `wg = 2 ^ w ≥ 2`,
`bitonic` terminates and its dispatch trace is exactly: for each `bsize = 2, 4, 8, ...` up to
the least power of two `≥ n` (no stage when `n = 1`), one large-stride pass `(bsize, skip)` for
each `skip = bsize / 2, bsize / 4, ...` with `skip * 2 > wg`, then exactly one small-stride pass
`(bsize, min (bsize / 2) (wg / 2))`; every pass uses the total width `round_up n wg`, the least
multiple of `wg` that is `≥ n`. -/
theorem bitonic_trace_spec (n wg w fuel : Nat) (hn1 : 1 ≤ n) (hn : n ≤ 2 ^ 30)
    (hwg : wg = 2 ^ w) (hw1 : 1 ≤ w) (hw : w ≤ 31) (hfuel : Nat.clog 2 n < fuel) :
    bitonic_trace wg fuel n = some (expected_trace wg n) ∧
      (wg ∣ round_up n wg ∧ n ≤ round_up n wg ∧ ∀ m, wg ∣ m → n ≤ m → round_up n wg ≤ m) := by
  have hwg1 : 1 ≤ wg := by rw [hwg]; exact Nat.pow_pos (by decide)
  have hwg31 : wg ≤ 2 ^ 31 := by rw [hwg]; exact Nat.pow_le_pow_right (by decide) hw
  have hgw : gw_size n wg = round_up n wg :=
    gw_size_eq n wg (by
      have h1 : (2 : Nat) ^ 30 + 2 ^ 31 ≤ U32 := by decide
      omega) hwg1
  refine ⟨?_, round_up_spec n wg hwg1⟩
  unfold bitonic_trace expected_trace
  rw [hgw]
  have h := bitonic_loop_trace wg w n hwg hw1 hn (Nat.clog 2 n) 0 fuel [] (by omega) hfuel
  simpa using h
theorem bitonic_loop_zero {σ : Type} (large small : Nat → Nat → σ → σ) (n wg : Nat)
    (hn : 1 ≤ n) : ∀ (fuel : Nat) (st : σ), bitonic_loop large small n wg fuel 0 st = none := by
  intro fuel
  induction fuel with
  | zero => intro st; rfl
  | succ fuel ih =>
    intro st
    have h0 : mulU32 0 2 = 0 := by decide
    simp only [bitonic_loop, Nat.zero_div, if_pos (by omega : 0 < n), h0, ih]

/-- For `n > 2 ^ 30` the stage width reaches `2 ^ 31`, doubles to `0` in `unsigned int`
arithmetic, and the loop condition `bsize / 2 < n` holds forever. -/
theorem bitonic_loop_diverges {σ : Type} (large small : Nat → Nat → σ → σ) (n wg : Nat)
    (hn : 2 ^ 30 < n) :
    ∀ (d : Nat), d ≤ 30 → ∀ (fuel : Nat) (st : σ),
      bitonic_loop large small n wg fuel (2 ^ (31 - d)) st = none := by
  intro d
  induction d with
  | zero =>
    intro _ fuel st
    cases fuel with
    | zero => rfl
    | succ fuel =>
      have h1 : 2 ^ (31 - 0) / 2 < n := by
        have : (2 : Nat) ^ (31 - 0) / 2 = 2 ^ 30 := by decide
        omega
      have h0 : mulU32 (2 ^ (31 - 0)) 2 = 0 := by decide
      simp only [bitonic_loop, if_pos h1, h0]
      exact bitonic_loop_zero large small n wg (by omega) fuel _
  | succ d ih =>
    intro hd fuel st
    cases fuel with
    | zero => rfl
    | succ fuel =>
      have h2 : 2 ^ (31 - (d + 1)) ≤ 2 ^ 30 := Nat.pow_le_pow_right (by decide) (by omega)
      have h1 : 2 ^ (31 - (d + 1)) / 2 < n := by
        have := Nat.div_le_self (2 ^ (31 - (d + 1))) 2
        omega
      have h0 : mulU32 (2 ^ (31 - (d + 1))) 2 = 2 ^ (31 - d) := by
        rw [mulU32_two_pow _ (by omega)]
        congr 1
        omega
      simp only [bitonic_loop, if_pos h1, h0]
      exact ih (by omega) fuel _

/-- Witness for C10: a thousand elements, the work-group size of the sources. -/
theorem bitonic_trace_spec_witness :
    bitonic_trace 128 11 1000 = some (expected_trace 128 1000) ∧
      (128 ∣ round_up 1000 128 ∧ 1000 ≤ round_up 1000 128 ∧
        ∀ m, 128 ∣ m → 1000 ≤ m → round_up 1000 128 ≤ m) :=
  bitonic_trace_spec 1000 128 7 11 (by decide) (by decide) (by decide) (by decide) (by decide)
    (clog_lt_of_le_pow 2 1000 10 11 (by decide) (by decide) (by decide))

/-- Counterexample to C10 as stated: for `n = 2 ^ 30 + 1 ≤ 2 ^ 31` the loop of `bitonic`
never exits, so there is no finite dispatch trace. -/
theorem bitonic_trace_diverges :
    1 ≤ 1073741825 ∧ 1073741825 ≤ 2 ^ 31 ∧
      ¬ ∃ fuel tr, bitonic_trace BLOCK_SIZE fuel 1073741825 = some tr := by
  refine ⟨by decide, by decide, ?_⟩
  rintro ⟨fuel, tr, h⟩
  unfold bitonic_trace at h
  have := bitonic_loop_diverges
    (fun bsize skip tr =>
      tr ++ [BitonicPass.large BLOCK_SIZE (gw_size 1073741825 BLOCK_SIZE) 1073741825 bsize skip])
    (fun bsize skip tr =>
      tr ++ [BitonicPass.small BLOCK_SIZE (gw_size 1073741825 BLOCK_SIZE) 1073741825 bsize skip])
    1073741825 BLOCK_SIZE (by decide) 30 (by decide) fuel []
  rw [show (2 : Nat) ^ (31 - 30) = 2 from rfl] at this
  rw [this] at h
  exact Option.noConfusion h
/-! ## Bitonic sort: the compare-exchange pass -/

theorem cmpx_length {α : Type} [LinearOrder α] (dir : Nat → Bool) (s : Nat) (x : List α) :
    (cmpx dir s x).length = x.length := by
  simp [cmpx]

theorem compare_exchange_eq_cmpx {α : Type} [LinearOrder α] (n bsize s : Nat) (x : List α)
    (hlen : x.length ≤ n) :
    compare_exchange n bsize s x = cmpx (fun i => decide (i / bsize % 2 = 0)) s x := by
  unfold compare_exchange cmpx
  apply List.ext_getElem?
  intro i
  rw [List.getElem?_mapIdx, List.getElem?_mapIdx]
  rcases Nat.lt_or_ge i x.length with hi | hi
  · rw [List.getElem?_eq_getElem hi]
    simp only [Option.map_some', Option.some.injEq]
    split
    · rcases Nat.lt_or_ge (i + s) x.length with h1 | h1
      · rw [List.getElem?_eq_getElem h1]
        simp only [if_pos (by omega : i + s < n), decide_eq_true_eq]
      · rw [List.getElem?_eq_none h1]
    · have h1 : i - s < x.length := by omega
      rw [List.getElem?_eq_getElem h1]
      simp only [if_pos (by omega : i < n), decide_eq_true_eq]
  · rw [List.getElem?_eq_none hi]
    rfl

theorem cmpx_getElem? {α : Type} [LinearOrder α] (dir : Nat → Bool) (s : Nat) (x : List α)
    (i : Nat) :
    (cmpx dir s x)[i]? = x[i]?.map fun v =>
      if i / s % 2 = 0 then
        match x[i + s]? with
        | some w => if dir i then min v w else max v w
        | none => v
      else
        match x[i - s]? with
        | some w => if dir i then max w v else min w v
        | none => v := by
  unfold cmpx
  rw [List.getElem?_mapIdx]

theorem cmpx_congr {α : Type} [LinearOrder α] (dir dir' : Nat → Bool) (s : Nat) (x : List α)
    (h : ∀ i, i < x.length → dir i = dir' i) : cmpx dir s x = cmpx dir' s x := by
  apply List.ext_getElem?
  intro i
  rw [cmpx_getElem?, cmpx_getElem?]
  rcases Nat.lt_or_ge i x.length with hi | hi
  · rw [h i hi]
  · rw [List.getElem?_eq_none hi]
    rfl

/-- Parity of `i / s` for `i` in a list split at a multiple of `2 * s`. -/
theorem div_parity_shift (s c i : Nat) (hs : 0 < s) :
    (2 * s * c + i) / s % 2 = i / s % 2 := by
  have h1 : 2 * s * c + i = i + s * (2 * c) := by
    rw [Nat.mul_assoc, Nat.mul_left_comm]; omega
  rw [h1, Nat.add_mul_div_left _ _ hs]
  omega

theorem partner_lt (s c i : Nat) (hs : 0 < s) (hi : i < 2 * s * c) (hpar : i / s % 2 = 0) :
    i + s < 2 * s * c := by
  have h1 : i / s < 2 * c := by
    rw [Nat.div_lt_iff_lt_mul hs]
    calc i < 2 * s * c := hi
      _ = 2 * c * s := by rw [Nat.mul_assoc, Nat.mul_comm s c, ← Nat.mul_assoc]
  have h2 : i / s + 2 ≤ 2 * c := by omega
  have h3 : s * (i / s + 2) ≤ s * (2 * c) := Nat.mul_le_mul_left s h2
  have h4 := Nat.div_add_mod i s
  have h5 := Nat.mod_lt i hs
  have h6 : s * (2 * c) = 2 * s * c := by
    rw [← Nat.mul_assoc, Nat.mul_comm s 2]
  rw [Nat.mul_add] at h3
  omega

theorem partner_ge (s i : Nat) (hpar : ¬ i / s % 2 = 0) : s ≤ i := by
  by_contra h
  have : i / s = 0 := Nat.div_eq_of_lt (by omega)
  rw [this] at hpar
  exact hpar rfl
/-- A pass at stride `s` acts separately on the two parts of a list split at a multiple of
`2 * s`. -/
theorem cmpx_append {α : Type} [LinearOrder α] (dir : Nat → Bool) (s c : Nat) (x1 x2 : List α)
    (hs : 0 < s) (h1 : x1.length = 2 * s * c) :
    cmpx dir s (x1 ++ x2) = cmpx dir s x1 ++ cmpx (fun i => dir (x1.length + i)) s x2 := by
  apply List.ext_getElem?
  intro i
  rw [cmpx_getElem?]
  rcases Nat.lt_or_ge i x1.length with hi | hi
  · have e0 : (x1 ++ x2)[i]? = x1[i]? := List.getElem?_append_left hi
    have e2 : (x1 ++ x2)[i - s]? = x1[i - s]? := List.getElem?_append_left (by omega)
    have e3 : (cmpx dir s x1 ++ cmpx (fun i => dir (x1.length + i)) s x2)[i]? =
        (cmpx dir s x1)[i]? := List.getElem?_append_left (by rw [cmpx_length]; exact hi)
    rw [e3, cmpx_getElem?, e0, e2]
    by_cases hpar : i / s % 2 = 0
    · have e1 : (x1 ++ x2)[i + s]? = x1[i + s]? :=
        List.getElem?_append_left (by have := partner_lt s c i hs (by omega) hpar; omega)
      simp only [if_pos hpar, e1]
    · simp only [if_neg hpar]
  · obtain ⟨i', rfl⟩ : ∃ i', i = x1.length + i' := ⟨i - x1.length, by omega⟩
    have hpar : (x1.length + i') / s % 2 = i' / s % 2 := by
      rw [h1]; exact div_parity_shift s c i' hs
    have e0 : (x1 ++ x2)[x1.length + i']? = x2[i']? := by
      rw [List.getElem?_append_right (by omega), Nat.add_sub_cancel_left]
    have e1 : (x1 ++ x2)[x1.length + i' + s]? = x2[i' + s]? := by
      rw [List.getElem?_append_right (by omega)]
      congr 1
      omega
    have e3 : (cmpx dir s x1 ++ cmpx (fun i => dir (x1.length + i)) s x2)[x1.length + i']? =
        (cmpx (fun i => dir (x1.length + i)) s x2)[i']? := by
      rw [List.getElem?_append_right (by rw [cmpx_length]; omega), cmpx_length,
        Nat.add_sub_cancel_left]
    rw [e3, cmpx_getElem?, e0, e1, hpar]
    by_cases hp : i' / s % 2 = 0
    · simp only [if_pos hp]
    · have hge := partner_ge s i' hp
      have e2 : (x1 ++ x2)[x1.length + i' - s]? = x2[i' - s]? := by
        rw [List.getElem?_append_right (by omega)]
        congr 1
        omega
      simp only [if_neg hp, e2]

/-- A pass at stride `s` on a list of two halves of length `s`, with constant direction:
the first half receives the pairwise minima (maxima when descending), the second half the
maxima (minima). -/
theorem cmpx_top {α : Type} [LinearOrder α] (d : Bool) (s : Nat) (x1 x2 : List α)
    (hs : 0 < s) (h1 : x1.length = s) (h2 : x2.length = s) :
    cmpx (fun _ => d) s (x1 ++ x2) =
      List.zipWith (fun v w => if d then min v w else max v w) x1 x2 ++
        List.zipWith (fun v w => if d then max v w else min v w) x1 x2 := by
  have hz : (List.zipWith (fun v w => if d then min v w else max v w) x1 x2).length = s := by
    rw [List.length_zipWith, h1, h2, Nat.min_self]
  apply List.ext_getElem?
  intro i
  rw [cmpx_getElem?]
  rcases Nat.lt_or_ge i s with hi | hi
  · have hpar : i / s % 2 = 0 := by rw [Nat.div_eq_of_lt hi]
    have e0 : (x1 ++ x2)[i]? = some x1[i] := by
      rw [List.getElem?_append_left (by omega), List.getElem?_eq_getElem]
    have e1 : (x1 ++ x2)[i + s]? = some x2[i] := by
      rw [List.getElem?_append_right (by omega), ← List.getElem?_eq_getElem]
      congr 1
      omega
    have e3 : (List.zipWith (fun v w => if d then min v w else max v w) x1 x2 ++
        List.zipWith (fun v w => if d then max v w else min v w) x1 x2)[i]? =
        some (if d then min x1[i] x2[i] else max x1[i] x2[i]) := by
      rw [List.getElem?_append_left (by omega), List.getElem?_zipWith,
        List.getElem?_eq_getElem (by omega : i < x1.length),
        List.getElem?_eq_getElem (by omega : i < x2.length)]
    rw [e0, e3]
    simp only [Option.map_some', if_pos hpar, e1]
  · rcases Nat.lt_or_ge i (2 * s) with hi2 | hi2
    · obtain ⟨i', rfl⟩ : ∃ i', i = s + i' := ⟨i - s, by omega⟩
      have hi' : i' < s := by omega
      have hpar : ¬ (s + i') / s % 2 = 0 := by
        have : (s + i') / s = 1 := by
          rw [Nat.add_div_left _ hs, Nat.div_eq_of_lt hi']
        rw [this]; decide
      have e0 : (x1 ++ x2)[s + i']? = some x2[i'] := by
        rw [List.getElem?_append_right (by omega), ← List.getElem?_eq_getElem]
        congr 1
        omega
      have e1 : (x1 ++ x2)[s + i' - s]? = some x1[i'] := by
        rw [Nat.add_sub_cancel_left, List.getElem?_append_left (by omega),
          List.getElem?_eq_getElem]
      have e3 : (List.zipWith (fun v w => if d then min v w else max v w) x1 x2 ++
          List.zipWith (fun v w => if d then max v w else min v w) x1 x2)[s + i']? =
          some (if d then max x1[i'] x2[i'] else min x1[i'] x2[i']) := by
        have e4 : ∀ l1 l2 : List α, l1.length = s → (l1 ++ l2)[s + i']? = l2[i']? := by
          intro l1 l2 hl
          rw [List.getElem?_append_right (by omega)]
          congr 1
          omega
        rw [e4 _ _ hz, List.getElem?_zipWith, List.getElem?_eq_getElem (by omega : i' < x1.length),
          List.getElem?_eq_getElem (by omega : i' < x2.length)]
      rw [e0, e3]
      simp only [Option.map_some', if_neg hpar, e1]
    · have e0 : (x1 ++ x2)[i]? = none := List.getElem?_eq_none (by simp; omega)
      have e5 : (List.zipWith (fun v w => if d then min v w else max v w) x1 x2 ++
          List.zipWith (fun v w => if d then max v w else min v w) x1 x2)[i]? = none :=
        List.getElem?_eq_none (by simp; omega)
      rw [e0, e5]
      rfl
/-! ## Bitonic sort: structure of the network -/

theorem cascade_length {α : Type} [LinearOrder α] (dir : Nat → Bool) (t : Nat) :
    ∀ x : List α, (cascade dir t x).length = x.length := by
  induction t with
  | zero => intro x; rfl
  | succ t ih => intro x; rw [cascade, ih, cmpx_length]

theorem cascade_congr {α : Type} [LinearOrder α] (dir dir' : Nat → Bool) (t : Nat) :
    ∀ x : List α, (∀ i, i < x.length → dir i = dir' i) → cascade dir t x = cascade dir' t x := by
  induction t with
  | zero => intro x _; rfl
  | succ t ih =>
    intro x h
    rw [cascade, cascade, cmpx_congr dir dir' _ x h]
    exact ih _ (by rw [cmpx_length]; exact h)

/-- The strides below `2 ^ t` act separately on the two parts of a list split at a multiple
of `2 ^ t`. -/
theorem cascade_append {α : Type} [LinearOrder α] (t : Nat) :
    ∀ (dir : Nat → Bool) (c : Nat) (x1 x2 : List α), x1.length = 2 ^ t * c →
      cascade dir t (x1 ++ x2) =
        cascade dir t x1 ++ cascade (fun i => dir (x1.length + i)) t x2 := by
  induction t with
  | zero => intro dir c x1 x2 _; rfl
  | succ t ih =>
    intro dir c x1 x2 h1
    have hs : 0 < 2 ^ t := Nat.pow_pos (by decide)
    have h2 : x1.length = 2 * 2 ^ t * c := by rw [h1, Nat.pow_succ, Nat.mul_comm (2 ^ t) 2]
    rw [cascade, cascade, cascade, cmpx_append dir (2 ^ t) c x1 x2 hs h2,
      ih dir (2 * c) _ _ (by rw [cmpx_length, h2, Nat.mul_assoc, Nat.mul_left_comm]),
      cmpx_length]

/-- Bitonic merge of a list of length `2 ^ (t + 1)`: one compare-exchange between the halves,
then the merge of each half. -/
theorem cascade_halves {α : Type} [LinearOrder α] (d : Bool) (t : Nat) (x1 x2 : List α)
    (h1 : x1.length = 2 ^ t) (h2 : x2.length = 2 ^ t) :
    cascade (fun _ => d) (t + 1) (x1 ++ x2) =
      cascade (fun _ => d) t (List.zipWith (fun v w => if d then min v w else max v w) x1 x2) ++
        cascade (fun _ => d) t
          (List.zipWith (fun v w => if d then max v w else min v w) x1 x2) := by
  have hs : 0 < 2 ^ t := Nat.pow_pos (by decide)
  rw [cascade, cmpx_top d (2 ^ t) x1 x2 hs h1 h2,
    cascade_append t (fun _ => d) 1 _ _ (by rw [List.length_zipWith, h1, h2]; simp)]

theorem network_length {α : Type} [LinearOrder α] (off k : Nat) :
    ∀ x : List α, (network off k x).length = x.length := by
  induction k with
  | zero => intro x; rfl
  | succ k ih => intro x; rw [network, cascade_length, ih]

/-- The stages up to `2 ^ k` act separately on the two parts of a list split at a multiple of
`2 ^ k`. -/
theorem network_append {α : Type} [LinearOrder α] (k : Nat) :
    ∀ (off c : Nat) (x1 x2 : List α), x1.length = 2 ^ k * c →
      network off k (x1 ++ x2) = network off k x1 ++ network (off + x1.length) k x2 := by
  induction k with
  | zero => intro off c x1 x2 _; rfl
  | succ k ih =>
    intro off c x1 x2 h1
    have h2 : x1.length = 2 ^ k * (2 * c) := by
      rw [h1, Nat.pow_succ, Nat.mul_assoc]
    rw [network, network, network, ih off (2 * c) x1 x2 h2,
      cascade_append (k + 1) _ c _ _ (by rw [network_length, h1]), network_length]
    congr 1
    apply cascade_congr
    intro i _
    unfold stageDir
    rw [Nat.add_assoc]

theorem stageDir_const (k m i : Nat) (hi : i < 2 ^ (k + 1)) :
    stageDir (2 ^ (k + 1) * m) (k + 1) i = decide (m % 2 = 0) := by
  unfold stageDir
  rw [Nat.mul_comm, Nat.add_comm, Nat.add_mul_div_right _ _ (Nat.pow_pos (by decide)),
    Nat.div_eq_of_lt hi, Nat.zero_add]

/-- A block of length `2 ^ (k + 1)` at an aligned offset: its two halves are sorted by the
first `k` stages, and stage `k + 1` merges them in the direction of the block. -/
theorem network_halves {α : Type} [LinearOrder α] (k m : Nat) (x1 x2 : List α)
    (h1 : x1.length = 2 ^ k) (h2 : x2.length = 2 ^ k) :
    network (2 ^ (k + 1) * m) (k + 1) (x1 ++ x2) =
      cascade (fun _ => decide (m % 2 = 0)) (k + 1)
        (network (2 ^ k * (2 * m)) k x1 ++ network (2 ^ k * (2 * m + 1)) k x2) := by
  have e1 : 2 ^ (k + 1) * m = 2 ^ k * (2 * m) := by rw [Nat.pow_succ, Nat.mul_assoc]
  have e2 : 2 ^ k * (2 * m) + x1.length = 2 ^ k * (2 * m + 1) := by
    rw [h1, Nat.mul_add, Nat.mul_one]
  rw [network, network_append k _ 1 x1 x2 (by rw [h1]; simp), e1, e2]
  apply cascade_congr
  intro i hi
  rw [← e1]
  apply stageDir_const
  rw [List.length_append, network_length, network_length, h1, h2] at hi
  rw [Nat.pow_succ]
  omega
/-! ## Bitonic sort: the network permutes its input -/

theorem pair_perm {α : Type} [LinearOrder α] (d : Bool) (a b : α) (l : List α) :
    ((if d then min a b else max a b) :: (if d then max a b else min a b) :: l).Perm
      (a :: b :: l) := by
  rcases le_total a b with h | h
  · cases d
    · simp only [Bool.false_eq_true, if_false, max_eq_right h, min_eq_left h]
      exact List.Perm.swap _ _ _
    · simp only [if_true, max_eq_right h, min_eq_left h]
      exact List.Perm.refl _
  · cases d
    · simp only [Bool.false_eq_true, if_false, max_eq_left h, min_eq_right h]
      exact List.Perm.refl _
    · simp only [if_true, max_eq_left h, min_eq_right h]
      exact List.Perm.swap _ _ _

theorem zipWith_min_max_perm {α : Type} [LinearOrder α] (d : Bool) :
    ∀ (x1 x2 : List α), x1.length = x2.length →
      (List.zipWith (fun v w => if d then min v w else max v w) x1 x2 ++
        List.zipWith (fun v w => if d then max v w else min v w) x1 x2).Perm (x1 ++ x2) := by
  intro x1
  induction x1 with
  | nil =>
    intro x2 h
    have : x2 = [] := List.length_eq_zero.mp h.symm
    subst this
    exact List.Perm.refl _
  | cons a x1 ih =>
    intro x2 h
    cases x2 with
    | nil => simp at h
    | cons b x2 =>
      simp only [List.length_cons, Nat.succ.injEq] at h
      simp only [List.zipWith_cons_cons, List.cons_append]
      refine (List.Perm.cons _ List.perm_middle).trans ?_
      refine (pair_perm d a b _).trans ?_
      refine List.Perm.cons _ ?_
      exact (List.Perm.cons _ (ih x2 h)).trans List.perm_middle.symm

theorem exists_halves {α : Type} (k : Nat) (x : List α) (h : x.length = 2 ^ (k + 1)) :
    ∃ x1 x2, x = x1 ++ x2 ∧ x1.length = 2 ^ k ∧ x2.length = 2 ^ k := by
  refine ⟨x.take (2 ^ k), x.drop (2 ^ k), (List.take_append_drop _ _).symm, ?_, ?_⟩
  · rw [List.length_take, h, Nat.pow_succ]; omega
  · rw [List.length_drop, h, Nat.pow_succ]; omega

theorem cascade_perm {α : Type} [LinearOrder α] (d : Bool) (t : Nat) :
    ∀ x : List α, x.length = 2 ^ t → (cascade (fun _ => d) t x).Perm x := by
  induction t with
  | zero => intro x _; exact List.Perm.refl _
  | succ t ih =>
    intro x h
    obtain ⟨x1, x2, rfl, h1, h2⟩ := exists_halves t x h
    rw [cascade_halves d t x1 x2 h1 h2]
    have hz1 : (List.zipWith (fun v w => if d then min v w else max v w) x1 x2).length = 2 ^ t := by
      rw [List.length_zipWith, h1, h2, Nat.min_self]
    have hz2 : (List.zipWith (fun v w => if d then max v w else min v w) x1 x2).length = 2 ^ t := by
      rw [List.length_zipWith, h1, h2, Nat.min_self]
    exact ((ih _ hz1).append (ih _ hz2)).trans
      (zipWith_min_max_perm d x1 x2 (by rw [h1, h2]))

theorem network_perm {α : Type} [LinearOrder α] (k : Nat) :
    ∀ (m : Nat) (x : List α), x.length = 2 ^ k → (network (2 ^ k * m) k x).Perm x := by
  induction k with
  | zero => intro m x _; exact List.Perm.refl _
  | succ k ih =>
    intro m x h
    obtain ⟨x1, x2, rfl, h1, h2⟩ := exists_halves k x h
    rw [network_halves k m x1 x2 h1 h2]
    refine (cascade_perm _ (k + 1) _ ?_).trans ((ih _ x1 h1).append (ih _ x2 h2))
    rw [List.length_append, network_length, network_length, h1, h2, Nat.pow_succ]
    omega
/-! ## Bitonic sort: zero-one inputs -/

theorem bool_both (b u v : Bool) :
    (if b then min u v else max u v) = b ↔ u = b ∧ v = b := by
  cases b <;> cases u <;> cases v <;> decide

theorem bool_either (b u v : Bool) :
    (if b then max u v else min u v) = b ↔ u = b ∨ v = b := by
  cases b <;> cases u <;> cases v <;> decide

theorem bool_ne_iff (b u : Bool) : u = !b ↔ ¬ u = b := by
  cases b <;> cases u <;> decide

theorem getD_zipWith_bool (f : Bool → Bool → Bool) (x1 x2 : List Bool) (i : Nat)
    (h1 : i < x1.length) (h2 : i < x2.length) :
    (List.zipWith f x1 x2).getD i false = f (x1.getD i false) (x2.getD i false) := by
  simp [List.getD_eq_getElem?_getD, List.getElem?_zipWith, List.getElem?_eq_getElem h1,
    List.getElem?_eq_getElem h2]

theorem getD_append_left_bool (x1 x2 : List Bool) (i : Nat) (h : i < x1.length) :
    (x1 ++ x2).getD i false = x1.getD i false := by
  simp [List.getD_eq_getElem?_getD, List.getElem?_append_left h]

theorem getD_append_right_bool (x1 x2 : List Bool) (i : Nat) :
    (x1 ++ x2).getD (x1.length + i) false = x2.getD i false := by
  simp [List.getD_eq_getElem?_getD, List.getElem?_append_right]

theorem getD_eq_getElem_bool (x : List Bool) (i : Nat) (hi : i < x.length) :
    x.getD i false = x[i] := by
  simp [List.getD_eq_getElem?_getD, List.getElem?_eq_getElem hi]

theorem forall_mem_of_getD (x : List Bool) (v : Bool)
    (h : ∀ i, i < x.length → x.getD i false = v) : ∀ u ∈ x, u = v := by
  intro u hu
  obtain ⟨i, hi, rfl⟩ := List.mem_iff_getElem.mp hu
  have := h i hi
  simpa [List.getD_eq_getElem?_getD, List.getElem?_eq_getElem hi] using this

theorem getD_of_forall_mem (x : List Bool) (v : Bool) (h : ∀ u ∈ x, u = v) (i : Nat)
    (hi : i < x.length) : x.getD i false = v := by
  have := h x[i] (List.getElem_mem _)
  simpa [List.getD_eq_getElem?_getD, List.getElem?_eq_getElem hi] using this

/-- The two halves of a list in which the value `b` fills the positions `p ≤ i < q`. -/
theorem block_halves (b : Bool) (x1 x2 : List Bool) (s p q : Nat) (h1 : x1.length = s)
    (h2 : x2.length = s) (hx : Block b (x1 ++ x2) p q) :
    (∀ i, i < s → (x1.getD i false = b ↔ p ≤ i ∧ i < q)) ∧
      (∀ i, i < s → (x2.getD i false = b ↔ p ≤ s + i ∧ s + i < q)) := by
  constructor
  · intro i hi
    rw [← getD_append_left_bool x1 x2 i (by omega)]
    exact hx i (by rw [List.length_append]; omega)
  · intro i hi
    rw [← getD_append_right_bool x1 x2 i, h1]
    exact hx (s + i) (by rw [List.length_append]; omega)

/-- Half-cleaner on a bitonic zero-one list: the pairwise combination that is `b` where both
halves are `b` has its `b`s contiguous; the other combination is bitonic; and either the
first never takes the value `b` or the second always does. -/
theorem half_clean (b : Bool) (x1 x2 : List Bool) (s p q : Nat) (h1 : x1.length = s)
    (h2 : x2.length = s) (hx : Block b (x1 ++ x2) p q) :
    Block b (List.zipWith (fun u v => if b then min u v else max u v) x1 x2) p (q - s) ∧
      Bitonic01 (List.zipWith (fun u v => if b then max u v else min u v) x1 x2) ∧
      ((∀ u ∈ List.zipWith (fun u v => if b then min u v else max u v) x1 x2, u = !b) ∨
        (∀ u ∈ List.zipWith (fun u v => if b then max u v else min u v) x1 x2, u = b)) := by
  obtain ⟨hA, hB⟩ := block_halves b x1 x2 s p q h1 h2 hx
  have hI : ∀ i, i < s →
      ((List.zipWith (fun u v => if b then min u v else max u v) x1 x2).getD i false = b ↔
        (p ≤ i ∧ i < q) ∧ (p ≤ s + i ∧ s + i < q)) := by
    intro i hi
    rw [getD_zipWith_bool _ x1 x2 i (by omega) (by omega), bool_both, hA i hi, hB i hi]
  have hU : ∀ i, i < s →
      ((List.zipWith (fun u v => if b then max u v else min u v) x1 x2).getD i false = b ↔
        (p ≤ i ∧ i < q) ∨ (p ≤ s + i ∧ s + i < q)) := by
    intro i hi
    rw [getD_zipWith_bool _ x1 x2 i (by omega) (by omega), bool_either, hA i hi, hB i hi]
  have hlenI : (List.zipWith (fun u v => if b then min u v else max u v) x1 x2).length = s := by
    rw [List.length_zipWith, h1, h2, Nat.min_self]
  have hlenU : (List.zipWith (fun u v => if b then max u v else min u v) x1 x2).length = s := by
    rw [List.length_zipWith, h1, h2, Nat.min_self]
  refine ⟨?_, ?_, ?_⟩
  · intro i hi
    rw [hlenI] at hi
    rw [hI i hi]
    omega
  · by_cases hc1 : q ≤ s
    · refine ⟨b, p, q, ?_⟩
      intro i hi
      rw [hlenU] at hi
      rw [hU i hi]
      omega
    · by_cases hc2 : s ≤ p
      · refine ⟨b, p - s, q - s, ?_⟩
        intro i hi
        rw [hlenU] at hi
        rw [hU i hi]
        omega
      · by_cases hc3 : p ≤ q - s
        · refine ⟨b, 0, s, ?_⟩
          intro i hi
          rw [hlenU] at hi
          rw [hU i hi]
          omega
        · refine ⟨!b, q - s, p, ?_⟩
          intro i hi
          rw [hlenU] at hi
          rw [bool_ne_iff, hU i hi]
          omega
  · by_cases hc : p < q - s ∧ p < s
    · right
      apply forall_mem_of_getD
      intro i hi
      rw [hlenU] at hi
      rw [hU i hi]
      omega
    · left
      apply forall_mem_of_getD
      intro i hi
      rw [hlenI] at hi
      rw [bool_ne_iff, hI i hi]
      omega
theorem sortedDir_singleton (d : Bool) (x : List Bool) (h : x.length = 1) : SortedDir d x := by
  obtain ⟨v, rfl⟩ := List.length_eq_one.mp h
  by_cases hv : v = d
  · refine ⟨0, ?_⟩
    intro i hi
    simp only [List.length_singleton] at hi ⊢
    have : i = 0 := by omega
    subst this
    simp [hv]
  · refine ⟨1, ?_⟩
    intro i hi
    simp only [List.length_singleton] at hi ⊢
    have : i = 0 := by omega
    subst this
    simp [hv]

theorem sortedDir_append (d : Bool) (y1 y2 : List Bool) (s : Nat) (h1 : y1.length = s)
    (h2 : y2.length = s) (hs1 : SortedDir d y1) (hs2 : SortedDir d y2)
    (hclean : (∀ u ∈ y1, u = !d) ∨ (∀ u ∈ y2, u = d)) : SortedDir d (y1 ++ y2) := by
  obtain ⟨z1, hz1⟩ := hs1
  obtain ⟨z2, hz2⟩ := hs2
  rw [h1] at hz1
  rw [h2] at hz2
  have hsplit : ∀ i, i < (y1 ++ y2).length → (i < s ∧ (y1 ++ y2).getD i false = y1.getD i false) ∨
      (s ≤ i ∧ i - s < s ∧ (y1 ++ y2).getD i false = y2.getD (i - s) false) := by
    intro i hi
    rw [List.length_append] at hi
    rcases Nat.lt_or_ge i s with h | h
    · exact Or.inl ⟨h, getD_append_left_bool y1 y2 i (by omega)⟩
    · refine Or.inr ⟨h, by omega, ?_⟩
      have := getD_append_right_bool y1 y2 (i - s)
      rw [h1] at this
      rw [← this]
      congr 1
      omega
  rcases hclean with hc | hc
  · refine ⟨s + z2, ?_⟩
    intro i hi
    have hlen : (y1 ++ y2).length = 2 * s := by rw [List.length_append]; omega
    rcases hsplit i hi with ⟨h, e⟩ | ⟨h, h', e⟩
    · have hne := getD_of_forall_mem y1 (!d) hc i (by omega)
      rw [bool_ne_iff] at hne
      rw [e, hlen]
      constructor
      · intro hd; exact absurd hd hne
      · intro hd; omega
    · rw [e, hz2 (i - s) (by omega), hlen]
      omega
  · refine ⟨min z1 s, ?_⟩
    intro i hi
    have hlen : (y1 ++ y2).length = 2 * s := by rw [List.length_append]; omega
    rcases hsplit i hi with ⟨h, e⟩ | ⟨h, h', e⟩
    · rw [e, hz1 i (by omega), hlen]
      omega
    · have heq := getD_of_forall_mem y2 d hc (i - s) (by omega)
      rw [e, hlen]
      constructor
      · intro _; omega
      · intro _; exact heq

theorem mem_cascade_of_forall {α : Type} [LinearOrder α] (d : Bool) (t : Nat) (x : List α)
    (h : x.length = 2 ^ t) (v : α) (hv : ∀ u ∈ x, u = v) :
    ∀ u ∈ cascade (fun _ => d) t x, u = v := by
  intro u hu
  exact hv u ((cascade_perm d t x h).mem_iff.mp hu)

/-- Bitonic merge on zero-one inputs: a bitonic list of length `2 ^ t` is sorted by the
compare-exchanges at strides `2 ^ (t - 1), ..., 1` in the direction of the stage. -/
theorem cascade_sorted (d : Bool) (t : Nat) :
    ∀ x : List Bool, x.length = 2 ^ t → Bitonic01 x → SortedDir d (cascade (fun _ => d) t x) := by
  induction t with
  | zero => intro x h _; exact sortedDir_singleton d x h
  | succ t ih =>
    intro x h hbit
    obtain ⟨x1, x2, rfl, h1, h2⟩ := exists_halves t x h
    obtain ⟨b, p, q, hblock⟩ := hbit
    obtain ⟨hI, hU, hclean⟩ := half_clean b x1 x2 (2 ^ t) p q h1 h2 hblock
    have hlen : ∀ f : Bool → Bool → Bool, (List.zipWith f x1 x2).length = 2 ^ t := by
      intro f; rw [List.length_zipWith, h1, h2, Nat.min_self]
    rw [cascade_halves d t x1 x2 h1 h2]
    have hbd : b = d ∨ b = !d := by cases b <;> cases d <;> simp
    rcases hbd with hb | hb
    · subst hb
      apply sortedDir_append b _ _ (2 ^ t) (by rw [cascade_length, hlen])
        (by rw [cascade_length, hlen]) (ih _ (hlen _) ⟨b, p, q - 2 ^ t, hI⟩) (ih _ (hlen _) hU)
      rcases hclean with hc | hc
      · exact Or.inl (mem_cascade_of_forall b t _ (hlen _) _ hc)
      · exact Or.inr (mem_cascade_of_forall b t _ (hlen _) _ hc)
    · have e1 : (fun u v : Bool => if d then min u v else max u v) =
          (fun u v : Bool => if b then max u v else min u v) := by
        subst hb; cases d <;> rfl
      have e2 : (fun u v : Bool => if d then max u v else min u v) =
          (fun u v : Bool => if b then min u v else max u v) := by
        subst hb; cases d <;> rfl
      rw [e1, e2]
      have hd : d = !b := by subst hb; cases d <;> rfl
      apply sortedDir_append d _ _ (2 ^ t) (by rw [cascade_length, hlen])
        (by rw [cascade_length, hlen]) (ih _ (hlen _) hU) (ih _ (hlen _) ⟨b, p, q - 2 ^ t, hI⟩)
      rcases hclean with hc | hc
      · refine Or.inr (mem_cascade_of_forall d t _ (hlen _) _ ?_)
        intro u hu
        rw [hc u hu, hd]
      · refine Or.inl (mem_cascade_of_forall d t _ (hlen _) _ ?_)
        intro u hu
        rw [hc u hu, hd]
        simp

/-- A list sorted ascending followed by a list sorted descending is bitonic. -/
theorem bitonic_of_sorted (y1 y2 : List Bool) (hs1 : SortedDir true y1)
    (hs2 : SortedDir false y2) : Bitonic01 (y1 ++ y2) := by
  obtain ⟨z1, hz1⟩ := hs1
  obtain ⟨z2, hz2⟩ := hs2
  refine ⟨true, min z1 y1.length, y1.length + z2, ?_⟩
  intro i hi
  rw [List.length_append] at hi
  rcases Nat.lt_or_ge i y1.length with h | h
  · rw [getD_append_left_bool y1 y2 i h, hz1 i h]
    omega
  · obtain ⟨i', rfl⟩ : ∃ i', i = y1.length + i' := ⟨i - y1.length, by omega⟩
    have h2 := hz2 i' (by omega)
    rw [getD_append_right_bool]
    have h3 : y2.getD i' false = true ↔ ¬ y2.getD i' false = false := by
      cases y2.getD i' false <;> simp
    rw [h3, h2]
    omega

/-- On zero-one inputs the first `k` stages sort every aligned block of length `2 ^ k`,
ascending in even blocks and descending in odd blocks. -/
theorem network_sorted (k : Nat) :
    ∀ (m : Nat) (x : List Bool), x.length = 2 ^ k →
      SortedDir (decide (m % 2 = 0)) (network (2 ^ k * m) k x) := by
  induction k with
  | zero => intro m x h; exact sortedDir_singleton _ _ (by rw [network_length]; exact h)
  | succ k ih =>
    intro m x h
    obtain ⟨x1, x2, rfl, h1, h2⟩ := exists_halves k x h
    rw [network_halves k m x1 x2 h1 h2]
    apply cascade_sorted
    · rw [List.length_append, network_length, network_length, h1, h2, Nat.pow_succ]
      omega
    · apply bitonic_of_sorted
      · have := ih (2 * m) x1 h1
        rwa [show decide (2 * m % 2 = 0) = true from by simp] at this
      · have := ih (2 * m + 1) x2 h2
        rwa [show decide ((2 * m + 1) % 2 = 0) = false from by simp; omega] at this
/-! ## Bitonic sort: from zero-one inputs to all inputs -/

theorem cmpx_map {α β : Type} [LinearOrder α] [LinearOrder β] (f : α → β) (hf : Monotone f)
    (dir : Nat → Bool) (s : Nat) (x : List α) :
    cmpx dir s (x.map f) = (cmpx dir s x).map f := by
  apply List.ext_getElem?
  intro i
  rw [List.getElem?_map, cmpx_getElem?, cmpx_getElem?, List.getElem?_map, List.getElem?_map,
    List.getElem?_map]
  cases x[i]? with
  | none => rfl
  | some v =>
    simp only [Option.map_some', Option.some.injEq]
    split
    · cases x[i + s]? with
      | none => rfl
      | some w =>
        simp only [Option.map_some']
        split
        · exact (hf.map_min).symm
        · exact (hf.map_max).symm
    · cases x[i - s]? with
      | none => rfl
      | some w =>
        simp only [Option.map_some']
        split
        · exact (hf.map_max).symm
        · exact (hf.map_min).symm

theorem cascade_map {α β : Type} [LinearOrder α] [LinearOrder β] (f : α → β) (hf : Monotone f)
    (dir : Nat → Bool) (t : Nat) :
    ∀ x : List α, cascade dir t (x.map f) = (cascade dir t x).map f := by
  induction t with
  | zero => intro x; rfl
  | succ t ih => intro x; rw [cascade, cascade, cmpx_map f hf, ih]

theorem network_map {α β : Type} [LinearOrder α] [LinearOrder β] (f : α → β) (hf : Monotone f)
    (off k : Nat) : ∀ x : List α, network off k (x.map f) = (network off k x).map f := by
  induction k with
  | zero => intro x; rfl
  | succ k ih => intro x; rw [network, network, ih, cascade_map f hf]

theorem sorted_of_sortedDir (y : List Bool) (h : SortedDir true y) : y.Sorted (· ≤ ·) := by
  obtain ⟨z, hz⟩ := h
  rw [List.Sorted, List.pairwise_iff_getElem]
  intro i j hi hj hij
  have h1 := hz i hi
  have h2 := hz j hj
  rw [getD_eq_getElem_bool y i hi] at h1
  rw [getD_eq_getElem_bool y j hj] at h2
  cases hyi : y[i] with
  | false => exact Bool.false_le _
  | true =>
    have : y[j] = true := h2.mpr ⟨by have := h1.mp hyi; omega, hj⟩
    rw [this]

/-- Zero-one principle for lists: a list all of whose monotone Boolean images are sorted is
sorted. -/
theorem sorted_of_monotone_images {α : Type} [LinearOrder α] :
    ∀ y : List α, (∀ f : α → Bool, Monotone f → (y.map f).Sorted (· ≤ ·)) →
      y.Sorted (· ≤ ·) := by
  intro y
  induction y with
  | nil => intro _; exact List.sorted_nil
  | cons a l ih =>
    intro h
    rw [List.sorted_cons]
    constructor
    · intro b hb
      have hmono : Monotone (fun x : α => decide (a ≤ x)) := by
        intro u v huv
        by_cases hau : a ≤ u
        · have : a ≤ v := le_trans hau huv
          simp [hau, this]
        · simp [hau]
      have h1 := h _ hmono
      rw [List.map_cons, List.sorted_cons] at h1
      have h2 := h1.1 (decide (a ≤ b)) (List.mem_map.mpr ⟨b, hb, rfl⟩)
      by_contra hab
      have e1 : decide (a ≤ a) = true := by simp
      have e2 : decide (a ≤ b) = false := by simp [hab]
      rw [e1, e2] at h2
      exact absurd h2 (by decide)
    · apply ih
      intro f hf
      have h1 := h f hf
      rw [List.map_cons, List.sorted_cons] at h1
      exact h1.2

/-- The bitonic network sorts every list of length `2 ^ k`. -/
theorem network_sorts {α : Type} [LinearOrder α] (k : Nat) (x : List α)
    (h : x.length = 2 ^ k) : (network 0 k x).Perm x ∧ (network 0 k x).Sorted (· ≤ ·) := by
  have h0 : (0 : Nat) = 2 ^ k * 0 := by rw [Nat.mul_zero]
  constructor
  · have := network_perm k 0 x h
    rwa [← h0] at this
  · apply sorted_of_monotone_images
    intro f hf
    rw [← network_map f hf]
    have := network_sorted k 0 (x.map f) (by rw [List.length_map, h])
    rw [← h0] at this
    exact sorted_of_sortedDir _ this
/-! ## Bitonic sort: the host loop runs the network -/

theorem compare_exchange_length {α : Type} [LinearOrder α] (n bsize s : Nat) (x : List α) :
    (compare_exchange n bsize s x).length = x.length := by
  simp [compare_exchange]

theorem stage_passes_eq_cascade {α : Type} [LinearOrder α] (n bsize t : Nat) :
    ∀ x : List α, x.length ≤ n →
      stage_passes n bsize t x = cascade (fun i => decide (i / bsize % 2 = 0)) t x := by
  induction t with
  | zero => intro x _; rfl
  | succ t ih =>
    intro x h
    rw [stage_passes, cascade, ih _ (by rw [compare_exchange_length]; exact h),
      compare_exchange_eq_cmpx n bsize _ x h]

theorem stages_length {α : Type} [LinearOrder α] (n k : Nat) :
    ∀ x : List α, x.length ≤ n → (stages n k x).length = x.length := by
  induction k with
  | zero => intro x _; rfl
  | succ k ih =>
    intro x h
    rw [stages, stage_passes_eq_cascade _ _ _ _ (by rw [ih x h]; exact h), cascade_length, ih x h]

theorem stages_eq_network {α : Type} [LinearOrder α] (n k : Nat) :
    ∀ x : List α, x.length ≤ n → stages n k x = network 0 k x := by
  induction k with
  | zero => intro x _; rfl
  | succ k ih =>
    intro x h
    rw [stages, network, stage_passes_eq_cascade _ _ _ _ (by rw [stages_length n k x h]; exact h),
      ih x h]
    apply cascade_congr
    intro i _
    unfold stageDir
    rw [Nat.zero_add]

/-- The small-stride kernel started at stride `2 ^ t` performs the passes at strides
`2 ^ t, ..., 2, 1`. -/
theorem small_loop_eq {α : Type} [LinearOrder α] (n bsize : Nat) :
    ∀ (t fuel : Nat) (x : List α), t < fuel →
      bitonic_small_loop n bsize fuel (2 ^ t) x = stage_passes n bsize (t + 1) x := by
  intro t
  induction t with
  | zero =>
    intro fuel x hf
    obtain ⟨f, rfl⟩ : ∃ f, fuel = f + 1 := ⟨fuel - 1, by omega⟩
    simp only [bitonic_small_loop, stage_passes, Nat.pow_zero, if_neg (by decide : ¬ 1 = 0)]
    cases f with
    | zero => rfl
    | succ f => simp [bitonic_small_loop]
  | succ t ih =>
    intro fuel x hf
    obtain ⟨f, rfl⟩ : ∃ f, fuel = f + 1 := ⟨fuel - 1, by omega⟩
    have hne : ¬ 2 ^ (t + 1) = 0 := Nat.pos_iff_ne_zero.mp (Nat.pow_pos (by decide))
    rw [bitonic_small_loop, if_neg hne, two_pow_div_two, ih f _ (by omega)]
    rfl

/-- One iteration of the outer loop of `bitonic`: whatever the work-group size, the
large-stride dispatches followed by the small-stride dispatch perform the passes at strides
`2 ^ t, ..., 2, 1` of the stage. -/
theorem skip_loop_small_eq {α : Type} [LinearOrder α] (n wg bsize : Nat) :
    ∀ (t fuel : Nat) (x : List α), t < fuel →
      bitonic_small
          (bitonic_skip_loop (fun bsize skip as => bitonic_large as n bsize skip) wg bsize fuel
            (2 ^ t) x).1 n bsize
          (bitonic_skip_loop (fun bsize skip as => bitonic_large as n bsize skip) wg bsize fuel
            (2 ^ t) x).2 =
        stage_passes n bsize (t + 1) x := by
  intro t
  induction t with
  | zero =>
    intro fuel x hf
    obtain ⟨f, rfl⟩ : ∃ f, fuel = f + 1 := ⟨fuel - 1, by omega⟩
    rw [bitonic_skip_loop]
    split
    · have h0 : (2 : Nat) ^ 0 / 2 = 0 := by decide
      rw [h0]
      have hr : ∀ y : List α,
          bitonic_skip_loop (fun bsize skip as => bitonic_large as n bsize skip) wg bsize f 0 y =
            (y, 0) := by
        intro y
        cases f with
        | zero => rfl
        | succ f =>
          have h1 : ¬ mulU32 0 2 > wg := by
            have : mulU32 0 2 = 0 := by decide
            omega
          rw [bitonic_skip_loop, if_neg h1]
      rw [hr]
      rfl
    · exact small_loop_eq n bsize 0 (2 ^ 0) x (by decide)
  | succ t ih =>
    intro fuel x hf
    obtain ⟨f, rfl⟩ : ∃ f, fuel = f + 1 := ⟨fuel - 1, by omega⟩
    rw [bitonic_skip_loop]
    split
    · rw [two_pow_div_two, ih f _ (by omega)]
      rfl
    · exact small_loop_eq n bsize (t + 1) (2 ^ (t + 1)) x (Nat.lt_two_pow _)

/-- The outer loop of `bitonic` on `n = 2 ^ k` elements runs the stages
`bsize = 2, 4, ..., 2 ^ k` and stops. -/
theorem bitonic_loop_eq {α : Type} [LinearOrder α] (wg k : Nat) (hk : k ≤ 30)
    (x0 : List α) :
    ∀ (r t fuel : Nat), t + r = k → r < fuel →
      bitonic_loop (fun bsize skip as => bitonic_large as (2 ^ k) bsize skip)
          (fun bsize skip as => bitonic_small as (2 ^ k) bsize skip) (2 ^ k) wg fuel (2 ^ (t + 1))
          (stages (2 ^ k) t x0) =
        some (stages (2 ^ k) k x0) := by
  intro r
  induction r with
  | zero =>
    intro t fuel ht hf
    obtain ⟨f, rfl⟩ : ∃ f, fuel = f + 1 := ⟨fuel - 1, by omega⟩
    have : t = k := by omega
    subst this
    rw [bitonic_loop, two_pow_div_two, if_neg (Nat.lt_irrefl _)]
  | succ r ih =>
    intro t fuel ht hf
    obtain ⟨f, rfl⟩ : ∃ f, fuel = f + 1 := ⟨fuel - 1, by omega⟩
    have h1 : 2 ^ t < 2 ^ k := Nat.pow_lt_pow_right (by decide) (by omega)
    rw [bitonic_loop, two_pow_div_two, if_pos h1]
    simp only []
    rw [skip_loop_small_eq (2 ^ k) wg (2 ^ (t + 1)) t (2 ^ t) _ (Nat.lt_two_pow t),
      mulU32_two_pow (t + 1) (by omega)]
    exact ih (t + 1) f (by omega) (by omega)

/-- The host function `bitonic_with` on `2 ^ k` elements computes the bitonic network. -/
theorem bitonic_with_eq {α : Type} [LinearOrder α] (wg k fuel : Nat) (hk : k ≤ 30)
    (hfuel : k < fuel) (A : List α) (hlen : A.length = 2 ^ k) :
    bitonic_with wg fuel A (2 ^ k) = some (network 0 k A) := by
  unfold bitonic_with
  have h := bitonic_loop_eq wg k hk A k 0 fuel (by omega) hfuel
  rw [stages_eq_network (2 ^ k) k A (by omega)] at h
  exact h
/-! ## Bitonic sort: claim -/

/-- C4 (amended): for every array `A` whose length `n = 2 ^ k` is a power of two with
`k ≤ 30`, over any totally ordered element type, with the large-stride pass modelled as one
bitonic compare-exchange at stride `skip` within stage `bsize` and the small-stride pass as the
compare-exchanges at strides `skip, skip / 2, ..., 1`, `bitonic` returns and the content of the
buffer is a permutation of `A` in non-decreasing order. -/
theorem bitonic_sorts {α : Type} [LinearOrder α] (A : List α) (n k fuel : Nat)
    (hn : n = 2 ^ k) (hk : k ≤ 30) (hlen : A.length = n) (hfuel : k < fuel) :
    ∃ out, bitonic fuel A n = some out ∧ out.Perm A ∧ out.Sorted (· ≤ ·) := by
  subst hn
  have h := network_sorts k A hlen
  exact ⟨network 0 k A, bitonic_with_eq BLOCK_SIZE k fuel hk hfuel A hlen, h.1, h.2⟩

/-- Witness for C4: eight natural numbers. -/
theorem bitonic_sorts_witness :
    ∃ out, bitonic 4 ([5, 3, 9, 1, 7, 2, 8, 4] : List Nat) 8 = some out ∧
      out.Perm [5, 3, 9, 1, 7, 2, 8, 4] ∧ out.Sorted (· ≤ ·) :=
  bitonic_sorts [5, 3, 9, 1, 7, 2, 8, 4] 8 3 4 (by decide) (by decide) rfl (by decide)

/-- Counterexample to C4 as stated: three elements `[2, 3, 1]` come back as `[1, 3, 2]`, which
is not sorted (the network is only complete for power-of-two lengths); and for `n = 2 ^ 31`
the stage width wraps to `0` and the loop never exits. -/
theorem bitonic_three_not_sorted :
    (bitonic 3 ([2, 3, 1] : List Nat) 3 = some [1, 3, 2] ∧
      ¬ ([1, 3, 2] : List Nat).Sorted (· ≤ ·)) ∧
    ¬ ∃ fuel out, bitonic fuel (List.replicate 2147483648 (0 : Nat)) 2147483648 = some out := by
  refine ⟨⟨by decide, by decide⟩, ?_⟩
  rintro ⟨fuel, out, h⟩
  unfold bitonic bitonic_with at h
  have := bitonic_loop_diverges
    (fun bsize skip (as : List Nat) => bitonic_large as 2147483648 bsize skip)
    (fun bsize skip (as : List Nat) => bitonic_small as 2147483648 bsize skip)
    2147483648 BLOCK_SIZE (by decide) 30 (by decide) fuel (List.replicate 2147483648 (0 : Nat))
  rw [show (2 : Nat) ^ (31 - 30) = 2 from rfl] at this
  rw [this] at h
  exact Option.noConfusion h
/-! ## Max prefix sum: lemmas -/

theorem ofInt32_add (a : Int) (s : Nat) (t : Int) (h : s % U32 = ofInt32 t) :
    (ofInt32 a + s) % U32 = ofInt32 (a + t) := by
  unfold ofInt32 U32 at *
  omega

theorem sum_map_ofInt32 (l : List Int) : (l.map ofInt32).sum % U32 = ofInt32 l.sum := by
  induction l with
  | nil => decide
  | cons a l ih =>
    rw [List.map_cons, List.sum_cons, List.sum_cons]
    exact ofInt32_add a _ _ ih

theorem toInt32_of_lt (w : Nat) (h : w < 2147483648) : toInt32 w = (w : Int) := by
  unfold toInt32 U32
  rw [Nat.mod_eq_of_lt (by omega), if_pos h]

theorem ofInt32_natCast (i : Nat) (h : i < U32) : ofInt32 (i : Int) = i := by
  unfold ofInt32 U32 at *
  omega

/-- The scanned words read back as `int` are the wrapped prefix sums of the `int` input. -/
theorem toInt32_scan (A : List Int) (i : Nat) :
    toInt32 (((A.map ofInt32).take (i + 1)).sum % U32) = prefixSum A i := by
  unfold prefixSum wrapInt32
  rw [← List.map_take, sum_map_ofInt32]

theorem better_isBest (sums : List Nat) (P Q : Nat → Prop) (a b : Nat)
    (ha : IsBest (fun i => toInt32 (sums.getD i 0)) P a)
    (hb : IsBest (fun i => toInt32 (sums.getD i 0)) Q b) :
    IsBest (fun i => toInt32 (sums.getD i 0)) (fun i => P i ∨ Q i) (better sums a b) := by
  obtain ⟨ha1, ha2⟩ := ha
  obtain ⟨hb1, hb2⟩ := hb
  unfold better
  split
  · rename_i h
    refine ⟨Or.inr hb1, ?_⟩
    rintro i (hi | hi)
    · have := ha2 i hi
      simp only [] at this ⊢
      omega
    · exact hb2 i hi
  · rename_i h
    refine ⟨Or.inl ha1, ?_⟩
    rintro i (hi | hi)
    · exact ha2 i hi
    · have := hb2 i hi
      simp only [] at this ⊢
      omega

theorem mod_half (i h k : Nat) (hk : k < h) :
    i % h = k ↔ i % (2 * h) = k ∨ i % (2 * h) = k + h := by
  have h1 : i % (2 * h) < 2 * h := Nat.mod_lt _ (by omega)
  have h2 : i % (2 * h) % h = i % h := by
    rw [Nat.mul_comm]; exact Nat.mod_mul_right_mod i h 2
  rcases Nat.lt_or_ge (i % (2 * h)) h with h3 | h3
  · rw [Nat.mod_eq_of_lt h3] at h2
    omega
  · rw [Nat.mod_eq_sub_mod h3, Nat.mod_eq_of_lt (by omega)] at h2
    omega
theorem getD_map_range_int (f : Nat → Int) (m i : Nat) (h : i < m) :
    ((List.range m).map f).getD i 0 = f i := by
  simp [List.getD_eq_getElem?_getD, List.getElem?_map, List.getElem?_range h]

theorem max_scan_length (sums maxes : List Nat) (m : Nat) :
    (max_scan sums maxes m).length = maxes.length := by
  simp [max_scan]

theorem max_scan_getD (sums maxes : List Nat) (h k : Nat) (hk : k < h)
    (hlen : 2 * h ≤ maxes.length) :
    (max_scan sums maxes (2 * h)).getD k 0 =
      better sums (maxes.getD k 0) (maxes.getD (k + h) 0) := by
  have h2 : 2 * h / 2 = h := Nat.mul_div_cancel_left h (by decide)
  have hk1 : k < maxes.length := by omega
  have hk2 : k + h < maxes.length := by omega
  unfold max_scan
  rw [List.getD_eq_getElem?_getD, List.getElem?_mapIdx, List.getElem?_eq_getElem hk1, h2]
  simp only [Option.map_some', if_pos hk, List.getElem?_eq_getElem hk2, Option.getD_some]
  rw [getD_eq_getElem maxes k hk1, getD_eq_getElem maxes (k + h) hk2]

/-- One pairwise-max pass halves the stride of the classes whose best index `maxes` holds. -/
theorem max_scan_inv (sums maxes : List Nat) (n h : Nat) (hlen : maxes.length = n)
    (hle : 2 * h ≤ n)
    (hinv : ∀ k, k < 2 * h →
      IsBest (fun i => toInt32 (sums.getD i 0)) (fun i => i < n ∧ i % (2 * h) = k)
        (maxes.getD k 0)) :
    ∀ k, k < h →
      IsBest (fun i => toInt32 (sums.getD i 0)) (fun i => i < n ∧ i % h = k)
        ((max_scan sums maxes (2 * h)).getD k 0) := by
  intro k hk
  rw [max_scan_getD sums maxes h k hk (by omega)]
  have hb := better_isBest sums _ _ _ _ (hinv k (by omega)) (hinv (k + h) (by omega))
  obtain ⟨hb1, hb2⟩ := hb
  refine ⟨?_, ?_⟩
  · rcases hb1 with ⟨h1, h2⟩ | ⟨h1, h2⟩
    · exact ⟨h1, (mod_half _ h k hk).mpr (Or.inl h2)⟩
    · exact ⟨h1, (mod_half _ h k hk).mpr (Or.inr h2)⟩
  · rintro i ⟨hi1, hi2⟩
    apply hb2 i
    rcases (mod_half i h k hk).mp hi2 with h3 | h3
    · exact Or.inl ⟨hi1, h3⟩
    · exact Or.inr ⟨hi1, h3⟩

/-- The reduction `max_elem` over an active length `2 ^ t` returns, in `maxes[0]`, the best
index of the whole array. -/
theorem max_elem_spec (sums : List Nat) (n : Nat) :
    ∀ (t fuel : Nat) (maxes : List Nat), t < fuel → 2 ^ t ≤ n → maxes.length = n →
      (∀ k, k < 2 ^ t →
        IsBest (fun i => toInt32 (sums.getD i 0)) (fun i => i < n ∧ i % 2 ^ t = k)
          (maxes.getD k 0)) →
      ∃ r, max_elem fuel sums maxes (2 ^ t) = some r ∧
        IsBest (fun i => toInt32 (sums.getD i 0)) (fun i => i < n) (r.getD 0 0) := by
  intro t
  induction t with
  | zero =>
    intro fuel maxes hf _ _ hinv
    obtain ⟨f, rfl⟩ : ∃ f, fuel = f + 1 := ⟨fuel - 1, by omega⟩
    refine ⟨maxes, by simp [max_elem], ?_⟩
    obtain ⟨h1, h2⟩ := hinv 0 (by decide)
    exact ⟨h1.1, fun i hi => h2 i ⟨hi, Nat.mod_one i⟩⟩
  | succ t ih =>
    intro fuel maxes hf hle hlen hinv
    obtain ⟨f, rfl⟩ : ∃ f, fuel = f + 1 := ⟨fuel - 1, by omega⟩
    have hne : ¬ 2 ^ (t + 1) = 1 := by
      have : 1 ≤ 2 ^ t := Nat.pow_pos (by decide)
      rw [Nat.pow_succ]; omega
    have hpow : 2 ^ (t + 1) = 2 * 2 ^ t := by rw [Nat.pow_succ, Nat.mul_comm]
    simp only [max_elem, if_neg hne, two_pow_div_two]
    apply ih f _ (by omega) (by omega) (by rw [max_scan_length, hlen])
    rw [hpow] at hinv hle ⊢
    exact max_scan_inv sums maxes n (2 ^ t) hlen hle hinv

theorem maxes_cpu_inv (sums : List Nat) (n : Nat) (hn : n ≤ U32) :
    ∀ k, k < n →
      IsBest (fun i => toInt32 (sums.getD i 0)) (fun i => i < n ∧ i % n = k)
        (((List.range n).map fun (i : Nat) => ofInt32 (i : Int)).getD k 0) := by
  intro k hk
  rw [getD_map_range _ _ _ hk, ofInt32_natCast k (by omega)]
  refine ⟨⟨hk, Nat.mod_eq_of_lt hk⟩, ?_⟩
  rintro i ⟨hi1, hi2⟩
  rw [Nat.mod_eq_of_lt hi1] at hi2
  subst hi2
  exact Or.inr ⟨rfl, Nat.le_refl _⟩

/-- Max prefix sum over a power-of-two length: the call returns the pair of the maximal
wrapped prefix sum and the least 0-based index attaining it. -/
theorem max_prefix_sum_spec (A : List Int) (n k fuel : Nat) (hn : n = 2 ^ k) (hk : k ≤ 30)
    (hlen : A.length = n) (hfuel : k < fuel) :
    ∃ idx : Nat, max_prefix_sum fuel (A.map ofInt32) n = some (prefixSum A idx, (idx : Int)) ∧
      idx < n ∧ (∀ i, i < n → prefixSum A i ≤ prefixSum A idx) ∧
      (∀ i, i < idx → prefixSum A i < prefixSum A idx) := by
  have hn30 : n ≤ 2 ^ 30 := by rw [hn]; exact Nat.pow_le_pow_right (by decide) hk
  have h30 : (2 : Nat) ^ 30 = 1073741824 := by decide
  have hclog : Nat.clog BLOCK_SIZE n < fuel := by
    have h1 : Nat.clog BLOCK_SIZE n ≤ Nat.clog 2 n :=
      Nat.clog_anti_left (by decide) (by decide)
    rw [hn, Nat.clog_pow 2 k (by decide)] at h1
    rw [hn]; omega
  obtain ⟨sums, hs, hslen, hsval⟩ := prefix_sum_spec (A.map ofInt32) n BLOCK_SIZE fuel
    (by rw [List.length_map, hlen]) (by decide) (by unfold BLOCK_SIZE U32; omega) hclog
  have hval : ∀ i, i < n → toInt32 (sums.getD i 0) = prefixSum A i := by
    intro i hi
    rw [List.getD_eq_getElem?_getD, hsval i hi, Option.getD_some, toInt32_scan]
  obtain ⟨r, hr, hbest1, hbest2⟩ := max_elem_spec sums n k fuel
    ((List.range n).map fun (i : Nat) => ofInt32 (i : Int)) hfuel (by omega) (by simp)
    (by rw [← hn]; exact maxes_cpu_inv sums n (by unfold U32; omega))
  have hidx : toInt32 (r.getD 0 0) = ((r.getD 0 0 : Nat) : Int) :=
    toInt32_of_lt _ (by omega)
  refine ⟨r.getD 0 0, ?_, hbest1, ?_, ?_⟩
  · rw [← hn] at hr
    unfold max_prefix_sum
    rw [hs]
    simp only []
    rw [hr]
    simp only []
    rw [hidx, Int.toNat_ofNat, getD_map_range_int _ _ _ hbest1, hval _ hbest1]
  · intro i hi
    have := hbest2 i hi
    simp only [] at this
    rw [hval i hi, hval _ hbest1] at this
    omega
  · intro i hi
    have := hbest2 i (by omega)
    simp only [] at this
    rw [hval i (by omega), hval _ hbest1] at this
    omega
/-! ## Max prefix sum: claims -/

/-- C5 (amended): for an array `A` of `n = 2 ^ k ≤ 2 ^ 30` signed integers, the second
component returned by `max_prefix_sum` is the least 0-based index `idx` at which the
inclusive prefix sum attains its maximum, so the shortest prefix with the maximal sum has
length `idx + 1`; for `A = [1, -1, 1, -1]` it returns index 0. -/
theorem max_prefix_sum_index (A : List Int) (n k fuel : Nat) (hn : n = 2 ^ k) (hk : k ≤ 30)
    (hlen : A.length = n) (hfuel : k < fuel) :
    ∃ (v : Int) (idx : Nat), max_prefix_sum fuel (A.map ofInt32) n = some (v, (idx : Int)) ∧
      idx < n ∧ prefixSum A idx = v ∧ (∀ i, i < n → prefixSum A i ≤ v) ∧
      (∀ i, i < idx → prefixSum A i < v) := by
  obtain ⟨idx, h1, h2, h3, h4⟩ := max_prefix_sum_spec A n k fuel hn hk hlen hfuel
  exact ⟨prefixSum A idx, idx, h1, h2, rfl, h3, h4⟩

/-- Witness for C5. -/
theorem max_prefix_sum_index_witness :
    ∃ (v : Int) (idx : Nat),
      max_prefix_sum 3 ([1, -1, 1, -1].map ofInt32) 4 = some (v, (idx : Int)) ∧
      idx < 4 ∧ prefixSum [1, -1, 1, -1] idx = v ∧
      (∀ i, i < 4 → prefixSum [1, -1, 1, -1] i ≤ v) ∧
      (∀ i, i < idx → prefixSum [1, -1, 1, -1] i < v) :=
  max_prefix_sum_index [1, -1, 1, -1] 4 2 3 (by decide) (by decide) rfl (by decide)

set_option maxRecDepth 100000 in
/-- Counterexample to C5 as stated: for `A = [1, -1, 1, -1]` the returned index is 0, not 1
(the index is 0-based, one less than the prefix length); and for the odd length 3 with
`A = [0, 0, 5]` the reduction never looks at the last element and returns index 0 although only
the prefix of length 3 has the maximal sum. -/
theorem max_prefix_sum_index_zero_based :
    max_prefix_sum 3 ([1, -1, 1, -1].map ofInt32) 4 = some (1, 0) ∧
      max_prefix_sum 3 ([0, 0, 5].map ofInt32) 3 = some (0, 0) := by
  decide

/-- C6 (amended): for every power of two `n = 2 ^ k ≤ 2 ^ 30` and every array `A` of `n` signed
integers, the first component returned by `max_prefix_sum` equals the maximum entry of the
inclusive prefix-sum array `sums[0..n-1]` (32-bit wraparound sums): it is an entry and no entry
exceeds it. -/
theorem max_prefix_sum_value (A : List Int) (n k fuel : Nat) (hn : n = 2 ^ k) (hk : k ≤ 30)
    (hlen : A.length = n) (hfuel : k < fuel) :
    ∃ v idx : Int, max_prefix_sum fuel (A.map ofInt32) n = some (v, idx) ∧
      (∃ i, i < n ∧ prefixSum A i = v) ∧ ∀ i, i < n → prefixSum A i ≤ v := by
  obtain ⟨idx, h1, h2, h3, _⟩ := max_prefix_sum_spec A n k fuel hn hk hlen hfuel
  exact ⟨prefixSum A idx, idx, h1, ⟨idx, h2, rfl⟩, h3⟩

/-- Witness for C6. -/
theorem max_prefix_sum_value_witness :
    ∃ v idx : Int, max_prefix_sum 4 ([2, -1, 3, -5, 4, 0, -2, 1].map ofInt32) 8 = some (v, idx) ∧
      (∃ i, i < 8 ∧ prefixSum [2, -1, 3, -5, 4, 0, -2, 1] i = v) ∧
      ∀ i, i < 8 → prefixSum [2, -1, 3, -5, 4, 0, -2, 1] i ≤ v :=
  max_prefix_sum_value [2, -1, 3, -5, 4, 0, -2, 1] 8 3 4 (by decide) (by decide) rfl (by decide)

set_option maxRecDepth 100000 in
/-- Counterexample to C6 as stated: for `n = 3` and `A = [0, 0, 5]` the single pairwise-max
pass compares only `maxes[0]` with `maxes[1]`, the reduction stops at length `3 / 2 = 1`, and
the first component is `0` although the prefix sums are `0, 0, 5`. -/
theorem max_prefix_sum_odd_length_drops :
    max_prefix_sum 3 ([0, 0, 5].map ofInt32) 3 = some (0, 0) ∧ prefixSum [0, 0, 5] 2 = 5 := by
  decide

set_option maxRecDepth 100000 in
/-- C7 (code bug): on `n = 2`, `as = [1, 1]` the device buffer prepared by `main` is
`[0, 1]` (the inserted `0` pushes the last element out of the uploaded range), so
`max_prefix_sum` returns `(1, 1)` while the sequential reference is `(2, 2)`. -/
theorem main_gpu_differs_from_reference :
    main_gpu 3 [1, 1] 2 = some (1, 1) ∧ reference [1, 1] = (2, 2) := by
  decide

/-! ## Radix sort: the dispatch trace, lemmas -/

/-- The dispatch list of a scan does not depend on the fuel once the fuel suffices. -/
theorem scan_dispatches_fuel (g : Nat) (hg : 3 ≤ g) :
    ∀ (fuel fuel2 n : Nat), Nat.clog g (n - 2) < fuel → Nat.clog g (n - 2) < fuel2 →
      scan_dispatches fuel n g = scan_dispatches fuel2 n g := by
  intro fuel
  induction fuel with
  | zero => intro fuel2 n h; omega
  | succ fuel ih =>
    intro fuel2 n h h2
    cases fuel2 with
    | zero => omega
    | succ fuel2 =>
      simp only [scan_dispatches]
      split
      · rfl
      · rename_i hn
        have hstep := clog_step n g hg (by omega)
        rw [ih fuel2 (b_sums_n n g) (by omega) (by omega)]

theorem scan_dispatches_expected (g fuel n : Nat) (hg : 3 ≤ g) (h : Nat.clog g n < fuel) :
    scan_dispatches fuel n g = expected_scan n g := by
  have h1 := clog_sub_le g n
  exact scan_dispatches_fuel g hg fuel (Nat.clog g n + 1) n (by omega) (by omega)

/-- The traced `prefix_sum` returns the buffer of `prefix_sum` and issues the dispatches
`scan_dispatches`, whatever the content of its input. -/
theorem prefix_sum_traced_spec (g : Nat) (hg : 3 ≤ g) :
    ∀ (fuel n : Nat) (A : List Nat), Nat.clog g (n - 2) < fuel →
      ∃ r, prefix_sum fuel A n g = some r ∧
        prefix_sum_traced fuel A n g = some (r, scan_dispatches fuel n g) := by
  intro fuel
  induction fuel with
  | zero => intro n A h; omega
  | succ fuel ih =>
    intro n A h
    simp only [prefix_sum, prefix_sum_traced, scan_dispatches]
    split
    · exact ⟨_, rfl, rfl⟩
    · rename_i hn
      have hstep := clog_step n g hg (by omega)
      obtain ⟨r, h1, h2⟩ := ih (b_sums_n n g)
        ((scan g A ((List.replicate (b_sums_n n g) 0).set 0 0)
          (List.replicate (res_n n g) 0) n 1).1) (by omega)
      rw [h1, h2]
      exact ⟨_, rfl, rfl⟩

theorem mulU32_shift_two (n : Nat) : mulU32 n (1 <<< 2) = n * 4 % U32 := rfl

/-- One traced iteration of `radix` performs the four actions of `iteration_actions`, the
scan running over the `unsigned int` product `n * (1 << 2)`, and leaves the output of the
reorder pass in the caller's buffer. -/
theorem radix_step_traced_spec (fuel n i : Nat) (st : RadixState) (tr : List RadixEvent)
    (hfuel : Nat.clog BLOCK_SIZE (n * 4 % U32) < fuel) :
    ∃ s, prefix_sum fuel (count st.as_gpu st.counts_gpu n i 2) (n * 4 % U32) BLOCK_SIZE
        = some s ∧
      radix_step fuel n 2 BLOCK_SIZE st i =
        some ⟨reorder st.as_gpu s st.bs_gpu n i 2, count st.as_gpu st.counts_gpu n i 2,
          st.as_gpu⟩ ∧
      radix_step_traced fuel n 2 BLOCK_SIZE n (st, tr) i =
        some (⟨reorder st.as_gpu s st.bs_gpu n i 2, count st.as_gpu st.counts_gpu n i 2,
          st.as_gpu⟩, tr ++ iteration_actions (n * 4 % U32) n i) := by
  have h1 := clog_sub_le BLOCK_SIZE (n * 4 % U32)
  obtain ⟨s, hs, hs2⟩ := prefix_sum_traced_spec BLOCK_SIZE (by decide) fuel (n * 4 % U32)
    (count st.as_gpu st.counts_gpu n i 2) (by omega)
  refine ⟨s, hs, ?_, ?_⟩
  · simp only [radix_step, mulU32_shift_two, hs]
  · simp only [radix_step_traced, mulU32_shift_two, hs2, iteration_actions,
      scan_dispatches_expected BLOCK_SIZE fuel (n * 4 % U32) (by decide) hfuel]

/-- The traced loop of `radix` over any list of bit offsets. -/
theorem radix_loop_traced (fuel n : Nat) (hfuel : Nat.clog BLOCK_SIZE (n * 4 % U32) < fuel) :
    ∀ (offs : List Nat) (st : RadixState) (tr : List RadixEvent),
      ∃ st2, offs.foldlM (radix_step fuel n 2 BLOCK_SIZE) st = some st2 ∧
        offs.foldlM (radix_step_traced fuel n 2 BLOCK_SIZE n) (st, tr) =
          some (st2, tr ++ offs.flatMap (iteration_actions (n * 4 % U32) n)) := by
  intro offs
  induction offs with
  | nil => intro st tr; exact ⟨st, rfl, by simp⟩
  | cons i offs ih =>
    intro st tr
    obtain ⟨s, -, h1, h2⟩ := radix_step_traced_spec fuel n i st tr hfuel
    obtain ⟨st2, h3, h4⟩ := ih ⟨reorder st.as_gpu s st.bs_gpu n i 2,
      count st.as_gpu st.counts_gpu n i 2, st.as_gpu⟩
      (tr ++ iteration_actions (n * 4 % U32) n i)
    refine ⟨st2, ?_, ?_⟩
    · rw [List.foldlM_cons, h1]; exact h3
    · rw [List.foldlM_cons, h2, List.flatMap_cons, ← List.append_assoc]; exact h4

/-- The traced `radix` returns the buffer of `radix`; its actions are those of 16 iterations
with the scan over the `unsigned int` product `n * (1 << 2)`. -/
theorem radix_traced_spec (A : List Nat) (n fuel : Nat)
    (hfuel : Nat.clog BLOCK_SIZE (n * 4 % U32) < fuel) :
    ∃ out, radix fuel A n = some out ∧
      radix_traced fuel A n = some (out,
        ((List.range 16).map fun k => 2 * k).flatMap (iteration_actions (n * 4 % U32) n)) := by
  obtain ⟨st2, h1, h2⟩ := radix_loop_traced fuel n hfuel (radix_offsets 2)
    ⟨A, List.replicate (mulU32 n (1 <<< 2)) 0, List.replicate n 0⟩ []
  refine ⟨st2.as_gpu, ?_, ?_⟩
  · simp only [radix, h1, Option.map]
  · rw [List.nil_append, radix_offsets_two] at h2
    simp only [radix_traced, radix_offsets_two, h2, Option.map]

theorem radix_traced_zero (A : List Nat) (n : Nat) : radix_traced 0 A n = none := by
  simp only [radix_traced, radix_offsets_two]
  rfl

theorem mul_four_mod (n : Nat) (hsz : 4 * n + BLOCK_SIZE ≤ U32) : n * 4 % U32 = n * 4 :=
  Nat.mod_eq_of_lt (by unfold BLOCK_SIZE at hsz; omega)

theorem reorder_length (A s bs : List Nat) (n i mw : Nat) :
    (reorder A s bs n i mw).length = bs.length := by
  unfold reorder
  exact scatter_length _ _ bs n

/-- The buffer returned by the scan of the `n * 4` indicator entries holds at least `n * 4`
elements when the rounded size does not wrap. -/
theorem scan_buffer_large (fuel n : Nat) (c s : List Nat) (hsz : 4 * n + BLOCK_SIZE ≤ U32)
    (hs : prefix_sum fuel c (n * 4) BLOCK_SIZE = some s) : n * 4 ≤ s.length := by
  rw [prefix_sum_length fuel c (n * 4) BLOCK_SIZE s hs,
    res_n_eq (n * 4) BLOCK_SIZE (by omega) (by decide)]
  exact le_WorkSize BLOCK_SIZE (n * 4) (by decide)

/-! ## Radix sort: the dispatch trace, claim -/

/-- C11 (amended): for every `n` with `4 * n + 128 ≤ 2 ^ 32` (the `n * 4` indicator entries
and their rounding to a multiple of the group size fit an `unsigned int`) and every content
of the `n` keys, `radix` performs exactly 16 iterations, at the bit offsets `0, 2, ..., 30`,
each consisting of one count pass, one `prefix_sum` over `n * 4` indicator entries, one
reorder pass and one buffer swap, in that order; the actions and their parameters are the
same for every array of `n` keys; and in each iteration, on buffers of `n`, `n * 4` and `n`
elements, the scan returns at least `n * 4` entries, the buffers keep their sizes, and after
the swap the caller's buffer holds the output of that iteration's reorder pass while the
scratch buffer holds the previous content. -/
theorem radix_trace_spec (A : List Nat) (n fuel : Nat) (hn : A.length = n)
    (hsz : 4 * n + BLOCK_SIZE ≤ U32) (hfuel : Nat.clog BLOCK_SIZE (4 * n) < fuel) :
    (∃ out, radix_traced fuel A n = some (out, expected_radix_trace n) ∧
      radix fuel A n = some out ∧ out.length = n) ∧
    ((expected_radix_trace n).filter (fun e => e = RadixEvent.swap)).length = 16 ∧
    (∀ B : List Nat, B.length = n →
      (radix_traced fuel B n).map Prod.snd = (radix_traced fuel A n).map Prod.snd) ∧
    (∀ (st : RadixState) (tr : List RadixEvent) (i : Nat),
      st.as_gpu.length = n → st.counts_gpu.length = n * 4 → st.bs_gpu.length = n →
      ∃ s, prefix_sum fuel (count st.as_gpu st.counts_gpu n i 2) (n * 4) BLOCK_SIZE
          = some s ∧
        n * 4 ≤ s.length ∧
        (count st.as_gpu st.counts_gpu n i 2).length = n * 4 ∧
        (reorder st.as_gpu s st.bs_gpu n i 2).length = n ∧
        radix_step_traced fuel n 2 BLOCK_SIZE n (st, tr) i =
          some (⟨reorder st.as_gpu s st.bs_gpu n i 2, count st.as_gpu st.counts_gpu n i 2,
            st.as_gpu⟩, tr ++ expected_iteration n i)) := by
  have hm := mul_four_mod n hsz
  have hf : Nat.clog BLOCK_SIZE (n * 4 % U32) < fuel := by
    rw [hm, Nat.mul_comm]; exact hfuel
  have hf3 : Nat.clog BLOCK_SIZE (4 * n) < fuel := hfuel
  refine ⟨?_, rfl, ?_, ?_⟩
  · obtain ⟨out, h1, h2⟩ := radix_traced_spec A n fuel hf
    rw [hm] at h2
    have h4 : n * 2 ^ 2 = 4 * n := by omega
    have hN : mulU32 n (1 <<< 2) = n * 2 ^ 2 :=
      mulU32_four n (by unfold BLOCK_SIZE at hsz; omega)
    obtain ⟨st2, h3, hperm, -⟩ := radix_loop_spec fuel n
      ⟨A, List.replicate (mulU32 n (1 <<< 2)) 0, List.replicate n 0⟩ hn
      (by show (List.replicate (mulU32 n (1 <<< 2)) 0).length = n * 2 ^ 2
          rw [List.length_replicate, hN])
      (List.length_replicate _ _) (by rw [h4]; exact hsz) (by rw [h4]; exact hf3) 16
    have h5 : radix fuel A n = some st2.as_gpu := by
      simp only [radix, radix_offsets_two, h3, Option.map]
    rw [h5] at h1
    cases h1
    exact ⟨st2.as_gpu, h2, h5, by rw [hperm.length_eq]; exact hn⟩
  · intro B _
    obtain ⟨out, -, h2⟩ := radix_traced_spec A n fuel hf
    obtain ⟨out2, -, h3⟩ := radix_traced_spec B n fuel hf
    rw [h2, h3]; rfl
  · intro st tr i h1 h2 h3
    obtain ⟨s, hs, -, hstep⟩ := radix_step_traced_spec fuel n i st tr hf
    rw [hm] at hs hstep
    exact ⟨s, hs, scan_buffer_large fuel n _ s hsz hs, by rw [count_length, h2],
      by rw [reorder_length, h3], hstep⟩

/-- Witness for C11: three keys. -/
theorem radix_trace_spec_witness :
    (∃ out, radix_traced 2 [3, 1, 2] 3 = some (out, expected_radix_trace 3) ∧
      radix 2 [3, 1, 2] 3 = some out ∧ out.length = 3) ∧
    ((expected_radix_trace 3).filter (fun e => e = RadixEvent.swap)).length = 16 ∧
    (∀ B : List Nat, B.length = 3 →
      (radix_traced 2 B 3).map Prod.snd = (radix_traced 2 [3, 1, 2] 3).map Prod.snd) ∧
    (∀ (st : RadixState) (tr : List RadixEvent) (i : Nat),
      st.as_gpu.length = 3 → st.counts_gpu.length = 3 * 4 → st.bs_gpu.length = 3 →
      ∃ s, prefix_sum 2 (count st.as_gpu st.counts_gpu 3 i 2) (3 * 4) BLOCK_SIZE
          = some s ∧
        3 * 4 ≤ s.length ∧
        (count st.as_gpu st.counts_gpu 3 i 2).length = 3 * 4 ∧
        (reorder st.as_gpu s st.bs_gpu 3 i 2).length = 3 ∧
        radix_step_traced 2 3 2 BLOCK_SIZE 3 (st, tr) i =
          some (⟨reorder st.as_gpu s st.bs_gpu 3 i 2, count st.as_gpu st.counts_gpu 3 i 2,
            st.as_gpu⟩, tr ++ expected_iteration 3 i)) :=
  radix_trace_spec [3, 1, 2] 3 2 rfl (by decide)
    (clog_lt_of_le_pow BLOCK_SIZE (4 * 3) 1 2 (by decide) (by decide) (by decide))

/-- Counterexample to C11 as stated: for `n = 2 ^ 30` the `unsigned int` product
`n * (1 << 2)` that the host passes to `prefix_sum` (and to the allocation of the indicator
buffer) is `0`, so no run of `radix` contains a `prefix_sum` over `n * 4 = 2 ^ 32` indicator
entries; and already for `n = 2 ^ 30 - 31` the rounded size of the scan buffer is `0`. -/
theorem radix_indicator_count_wraps :
    mulU32 1073741824 (1 <<< 2) = 0 ∧
    (¬ ∃ fuel out tr ds,
      radix_traced fuel (List.replicate 1073741824 7) 1073741824 = some (out, tr) ∧
        RadixEvent.prefix_sum (1073741824 * 4) BLOCK_SIZE ds ∈ tr) ∧
    res_n (mulU32 1073741793 (1 <<< 2)) BLOCK_SIZE = 0 := by
  have h0 : 1073741824 * 4 % U32 = 0 := by decide
  have hc : ∀ fuel, Nat.clog BLOCK_SIZE (1073741824 * 4 % U32) < fuel + 1 := by
    intro fuel
    rw [h0, Nat.clog_zero_right]; exact Nat.succ_pos _
  refine ⟨by decide, ?_, by decide⟩
  rintro ⟨fuel, out, tr, ds, h, hmem⟩
  cases fuel with
  | zero => rw [radix_traced_zero] at h; exact Option.noConfusion h
  | succ fuel =>
    obtain ⟨out2, -, h2⟩ :=
      radix_traced_spec (List.replicate 1073741824 7) 1073741824 (fuel + 1) (hc fuel)
    rw [h2, h0] at h
    have htr : tr = ((List.range 16).map fun k => 2 * k).flatMap
        (iteration_actions 0 1073741824) := by
      injection h with h; injection h with _ h; exact h.symm
    rw [htr, List.mem_flatMap] at hmem
    obtain ⟨i, -, hi⟩ := hmem
    simp [iteration_actions] at hi
end Tasks
